import Mathlib

/-!
# httplab: the terminal user interface (`ui.go`)

A shallow embedding of `ui.go` and a verification of its documented behaviour.

* Go values are Lean values: `string` is `String` (with `len` the UTF-8 byte count),
  `int` is `Int` (64-bit, wrapping where the source multiplies), `time.Duration` is an
  `Int` count of nanoseconds, `error` is `Option GoError` (`none` is `nil`).
* Pointers are passed as explicit state: a method `func (ui *UI) f(g *gocui.Gui, ..) error`
  becomes a function from `UI` and `Gui` to the error and the `UI` and `Gui` afterwards.
  A `*gocui.View` is identified by its name, as `gocui` itself does.
* `gocui`, `strconv`, `strings`, `net/http` and `time` are libraries; the parts `ui.go`
  calls are modelled after their documented behaviour, each in its own section.
* `NewSplit` and `NewResponse` are functions of this package defined outside `ui.go`;
  they are parameters of the functions that call them.
-/

namespace httplab

/-! ## Go primitives -/

/-- Go `error` values: the two sentinel errors of `gocui` that `ui.go` names, and any
other error with its message. `nil` is `none : Option GoError`. -/
inductive GoError where
  | ErrUnknownView
  | ErrQuit
  | other (msg : String)
  deriving DecidableEq, Repr

/-- The `Error()` method, which is what `%v` prints. -/
def GoError.Error : GoError → String
  | .ErrUnknownView => "unknown view"
  | .ErrQuit => "quit"
  | .other msg => msg

/-- Go's builtin `len` on a string: the number of bytes of its UTF-8 encoding. -/
def len (s : String) : Nat := s.utf8ByteSize

/-- Conversion of an arbitrary-precision result to Go's 64-bit `int` / `int64`
(two's complement wrap-around). -/
def wrapInt64 (z : Int) : Int := (z + 2 ^ 63) % 2 ^ 64 - 2 ^ 63

/-- The constant `time.Millisecond`, in nanoseconds. -/
def Millisecond : Int := 1000000

/-- The constant `time.Second`, in nanoseconds. -/
def Second : Int := 1000000000

/-- The verb `%d` of package `fmt` on an `int`. -/
def fmtInt (n : Int) : String := toString n

/-! ## `strings` and `strconv` -/

/-- The function `strings.Trim(s, cutset)`: `s` without the leading and trailing
characters that occur in `cutset`. -/
def strings.Trim (s cutset : String) : String :=
  let inCut : Char → Bool := fun c => decide (c ∈ cutset.toList)
  String.mk ((s.toList.dropWhile inCut).reverse.dropWhile inCut).reverse

/-- Value of an ASCII digit, `none` for any other character. -/
def digitVal (c : Char) : Option Nat :=
  if 48 ≤ c.toNat ∧ c.toNat ≤ 57 then some (c.toNat - 48) else none

/-- Base-10 value of a sequence of ASCII digits, most significant first, on top of `acc`;
`none` as soon as a character is not a digit. -/
def parseDigits : List Char → Nat → Option Nat
  | [], acc => some acc
  | c :: cs, acc =>
    match digitVal c with
    | none => none
    | some d => parseDigits cs (acc * 10 + d)

/-- The function `strconv.Atoi` for a 64-bit `int`: an optional sign `+` or `-`, then one or
more ASCII digits; a syntax error otherwise, a range error when the value is outside
`-2^63 .. 2^63-1`. -/
def strconv.Atoi (s : String) : Except GoError Int :=
  let s0 := s.toList
  let neg : Bool := decide (s0.head? = some '-')
  let ds := if s0.head? = some '-' ∨ s0.head? = some '+' then s0.tail else s0
  if ds = [] then .error (.other "invalid syntax")
  else
    match parseDigits ds 0 with
    | none => .error (.other "invalid syntax")
    | some un =>
      if neg then
        if un > 2 ^ 63 then .error (.other "value out of range") else .ok (-(un : Int))
      else
        if un ≥ 2 ^ 63 then .error (.other "value out of range") else .ok (un : Int)

/-! ## `net/http`: headers -/

/-- The type `http.Header`, a `map[string][]string`, as an association list. The order of
the list stands for the order in which `range` visits the map in the run at hand (Go leaves
it unspecified); a Go map has each key once. -/
abbrev Header := List (String × List String)

/-- Bytes allowed in a header field name (the `token` characters of RFC 7230). -/
def validHeaderFieldByte (c : Char) : Bool :=
  let n := c.toNat
  (48 ≤ n && n ≤ 57) || (65 ≤ n && n ≤ 90) || (97 ≤ n && n ≤ 122) ||
    decide (n ∈ [33, 35, 36, 37, 38, 39, 42, 43, 45, 46, 94, 95, 96, 124, 126])

/-- Canonical letter case, given whether the previous byte was a `-` (or the start). -/
def canonicalChars : Bool → List Char → List Char
  | _, [] => []
  | upper, c :: cs =>
    let c1 :=
      if upper && (97 ≤ c.toNat && c.toNat ≤ 122) then Char.ofNat (c.toNat - 32)
      else if !upper && (65 ≤ c.toNat && c.toNat ≤ 90) then Char.ofNat (c.toNat + 32)
      else c
    c1 :: canonicalChars (c1 = '-') cs

/-- The function `textproto.CanonicalMIMEHeaderKey`: a name made of token characters gets
its first letter and every letter after a `-` in upper case and the others in lower case;
any other string is returned unchanged. -/
def CanonicalMIMEHeaderKey (s : String) : String :=
  if s.toList.all validHeaderFieldByte then String.mk (canonicalChars true s.toList) else s

/-- The map lookup `h[key]`: the values stored under exactly `key`, empty when absent. -/
def Header.lookup (h : Header) (key : String) : List String :=
  match h.find? (fun e => e.1 = key) with
  | some e => e.2
  | none => []

/-- The method `http.Header.Get`: the first value stored under the canonical form of `key`,
and `""` when there is none. -/
def Header.Get (h : Header) (key : String) : String :=
  match h.lookup (CanonicalMIMEHeaderKey key) with
  | [] => ""
  | v :: _ => v

/-! ## The `Response` and the layout splitter (declared outside `ui.go`) -/

/-- Modelled from the spec: the struct `Response` is declared outside `ui.go`; these are the
four fields `ui.go` reads and writes and the spec's data model lists. `Body` is the text of
the `[]byte`, `Delay` a `time.Duration` in nanoseconds. -/
structure Response where
  Status : Int
  Headers : Header
  Body : String
  Delay : Int
  deriving DecidableEq, Repr

/-- The interface of `*Split` as `ui.go` uses it: `NewSplit(size)`, the chainable
`Fixed(..)` and `Relative(..)`, `Next()` which returns a boundary and advances, and
`Current()` which returns a boundary and leaves the splitter as it is. The implementation is
outside `ui.go`, so the functions of this file take it as a parameter. -/
structure SplitAPI where
  Split : Type
  NewSplit : Int → Split
  Fixed : Split → List Int → Split
  Relative : Split → List Int → Split
  Next : Split → Int × Split
  Current : Split → Int

/-- Modelled from the spec: state of the Split Layout Calculator of section 4.1, which is
implemented outside `ui.go`: the total extent, the extent reserved so far, the boundaries
not yet handed out, and the last boundary handed out (0 initially). -/
structure SpecSplit where
  size : Int
  used : Int
  pending : List Int
  cur : Int
  deriving DecidableEq, Repr

/-- Modelled from the spec: reserving `k` units of the remaining extent, clamped to
`0 .. remaining`, adds the boundary at the end of the reservation. -/
def SpecSplit.reserve (s : SpecSplit) (k : Int) : SpecSplit :=
  let r := max 0 (min k (s.size - s.used))
  { s with used := s.used + r, pending := s.pending ++ [s.used + r] }

/-- Modelled from the spec: the Split Layout Calculator of section 4.1 (`Fixed(k1, k2, ..)`
reserves `k1`, `k2`, .. units in sequence, `Relative(p)` reserves `p` percent of the total
extent rounded down, `Next()` hands out the next boundary, or the total extent once the
directives are exhausted, `Current()` is the last boundary handed out). -/
def specSplit : SplitAPI where
  Split := SpecSplit
  NewSplit := fun size => { size := size, used := 0, pending := [], cur := 0 }
  Fixed := fun s ks => ks.foldl SpecSplit.reserve s
  Relative := fun s ps => ps.foldl (fun s p => s.reserve (p * s.size / 100)) s
  Next := fun s =>
    match s.pending with
    | [] => (s.size, { s with cur := s.size })
    | b :: bs => (b, { s with pending := bs, cur := b })
  Current := fun s => s.cur

/-! ## `gocui`: views and the GUI -/

/-- The keys of `gocui` that `ui.go` names; `KeyOther` is any other key, and the key of an
event that carries a character. -/
inductive Key where
  | KeyArrowUp | KeyArrowDown | KeyArrowLeft | KeyArrowRight
  | KeyBackspace | KeyBackspace2 | KeyCtrlC | KeyCtrlS | KeyTab | KeyOther
  deriving DecidableEq, Repr

/-- The implementations of `gocui.Editor` a view can carry: the default editor of `gocui`
and the two editors of `ui.go`. -/
inductive Editor where
  | DefaultEditor | readOnlyEditor | statusEditor
  deriving DecidableEq, Repr

/-- The colours of `gocui` that matter here. -/
inductive Attribute where
  | ColorDefault | ColorGreen
  deriving DecidableEq, Repr

/-- A `gocui.View`: its name, its rectangle, the exported fields `ui.go` sets, and the
lines of its internal buffer. `gocui` keeps an interpreter of terminal escape sequences in
every view, through which `Write` passes the text; it is at rest as long as no escape
character was written. The flag `plain` records that: it holds as long as every text written
to the view was free of the escape character, and only then is `lines` the buffer `gocui`
holds. -/
structure View where
  name : String
  x0 : Int
  y0 : Int
  x1 : Int
  y1 : Int
  Title : String
  Editable : Bool
  Editor : httplab.Editor
  lines : List (List Char)
  plain : Bool
  deriving DecidableEq, Repr

/-- What `gocui` creates for a name it does not know: no title, not editable, the default
editor, an empty buffer, the escape interpreter at rest. -/
def newView (name : String) (x0 y0 x1 y1 : Int) : View :=
  { name := name, x0 := x0, y0 := y0, x1 := x1, y1 := y1,
    Title := "", Editable := false, Editor := .DefaultEditor, lines := [], plain := true }

/-- The text is free of the escape character (code 27), with which terminal escape
sequences start. -/
def plainText (s : String) : Bool := decide (Char.ofNat 27 ∉ s.toList)

/-- One character of `View.Write`: a newline opens a new line, a carriage return empties
the last line, any other character is appended to the last line (opening the first line
when there is none). -/
def writeRune (ls : List (List Char)) (ch : Char) : List (List Char) :=
  if ch = '\n' then ls ++ [[]]
  else if ch = '\r' then (if ls = [] then [[]] else ls.dropLast ++ [[]])
  else if ls = [] then [[ch]]
  else ls.dropLast ++ [ls.getLastD [] ++ [ch]]

/-- The method `View.Write` (the `io.Writer` that `fmt.Fprintf` writes to). For text free
of the escape character, written to a view whose escape interpreter is at rest, every
character goes to the buffer as `writeRune` says. `gocui` interprets escape sequences and
leaves them out of the buffer; that is not modelled: a text with an escape character clears
the flag `plain`, and nothing is stated about the lines of a view that is not `plain`. -/
def View.Write (v : View) (p : String) : View :=
  { v with lines := p.toList.foldl writeRune v.lines, plain := v.plain && plainText p }

/-- The method `View.Clear`: empties the buffer (the escape interpreter is left as it
is). -/
def View.Clear (v : View) : View := { v with lines := [] }

/-- The method `View.Buffer`: every line of the buffer followed by a newline, with NUL
shown as a space. -/
def View.Buffer (v : View) : String :=
  String.mk ((v.lines.flatMap (fun l => l ++ ['\n'])).map
    (fun c => if c = Char.ofNat 0 then ' ' else c))

/-- The calls an editor makes on the view it edits. -/
inductive ViewOp where
  | MoveCursor (dx dy : Int) (writeMode : Bool)
  | EditWrite (ch : Char)
  | EditDelete (back : Bool)
  deriving DecidableEq, Repr

/-- The handlers `ui.go` binds to keys. -/
inductive Handler where
  | quit | saveResponse | cicleViews
  deriving DecidableEq, Repr

/-- A key binding of the GUI. -/
structure Keybinding where
  viewname : String
  key : Key
  handler : Handler
  deriving DecidableEq, Repr

/-- A `gocui.Gui`: its views in creation order, the view that has the focus (by name,
`none` when no view has it), the size of the terminal, the exported fields `Init` sets and
the key bindings. -/
structure Gui where
  views : List View
  currentView : Option String
  maxX : Int
  maxY : Int
  Cursor : Bool
  Highlight : Bool
  SelFgColor : Attribute
  keybindings : List Keybinding
  deriving DecidableEq, Repr

/-- The method `Gui.Size`. -/
def Gui.Size (g : Gui) : Int × Int := (g.maxX, g.maxY)

/-- The method `Gui.View`: the first view of that name; `none` stands for the pair
`(nil, ErrUnknownView)`. -/
def Gui.View (g : Gui) (name : String) : Option View :=
  g.views.find? (fun v => v.name = name)

/-- Applies `f` to the first view of the list that has the name. -/
def updateFirst (name : String) (f : View → View) : List View → List View
  | [] => []
  | v :: vs => if v.name = name then f v :: vs else v :: updateFirst name f vs

/-- A mutation through the pointer `Gui.View(name)` returns. -/
def Gui.updateView (g : Gui) (name : String) (f : httplab.View → httplab.View) : Gui :=
  { g with views := updateFirst name f g.views }

/-- The method `Gui.SetView`: an error for an empty rectangle or an empty name; an existing
view only gets the new rectangle and `nil` is returned; otherwise a new view is appended
and `ErrUnknownView` is returned with it. -/
def Gui.SetView (g : Gui) (name : String) (x0 y0 x1 y1 : Int) : Option GoError × Gui :=
  if x0 ≥ x1 ∨ y0 ≥ y1 then (some (.other "invalid dimensions"), g)
  else if name = "" then (some (.other "invalid name"), g)
  else
    match g.View name with
    | some _ =>
      (none, g.updateView name
        (fun (v : httplab.View) => { v with x0 := x0, y0 := y0, x1 := x1, y1 := y1 }))
    | none =>
      (some .ErrUnknownView, { g with views := g.views ++ [newView name x0 y0 x1 y1] })

/-- The method `Gui.SetCurrentView`: gives the focus to the view of that name, or returns
`ErrUnknownView` when there is none. -/
def Gui.SetCurrentView (g : Gui) (name : String) : Option GoError × Gui :=
  match g.View name with
  | some _ => (none, { g with currentView := some name })
  | none => (some .ErrUnknownView, g)

/-- The method `Gui.CurrentView`: the view that has the focus, or `nil`. -/
def Gui.CurrentView (g : Gui) : Option httplab.View :=
  match g.currentView with
  | some name => g.View name
  | none => none

/-- The method `Gui.SetKeybinding` for a key of type `gocui.Key`: appends the binding. -/
def Gui.SetKeybinding (g : Gui) (viewname : String) (key : Key) (h : Handler) :
    Option GoError × Gui :=
  (none, { g with keybindings := g.keybindings ++ [⟨viewname, key, h⟩] })

/-! ## `time`: timers as explicit state -/

/-- A `time.Timer` made by `time.AfterFunc`: when it is due, and whether it is still
pending (neither fired nor stopped). -/
structure Timer where
  deadline : Int
  pending : Bool
  deriving DecidableEq, Repr

/-- The timers of the process: the clock in nanoseconds, every timer made so far (a
`*time.Timer` is its index), and the times at which an auto-clear of the info pane ran. All
timers of the program are made at one place, in `Info`, with the same callback. -/
structure Runtime where
  now : Int
  timers : List Timer
  clears : List Int
  deriving DecidableEq, Repr

/-- The function `time.AfterFunc(d, f)`: a new pending timer due `d` from now. -/
def Runtime.AfterFunc (rt : Runtime) (d : Int) : Nat × Runtime :=
  (rt.timers.length, { rt with timers := rt.timers ++ [⟨rt.now + d, true⟩] })

/-- Marks the timer at index `i` as no longer pending. -/
def stopAt : Nat → List Timer → List Timer
  | _, [] => []
  | 0, t :: ts => { t with pending := false } :: ts
  | i + 1, t :: ts => t :: stopAt i ts

/-- The method `Timer.Stop`: the timer will not fire any more. -/
def Runtime.Stop (rt : Runtime) (t : Nat) : Runtime :=
  { rt with timers := stopAt t rt.timers }

/-- The pending timers that are due at time `now`, in creation order. -/
def dueTimers (now : Int) (ts : List Timer) : List Timer :=
  ts.filter (fun t => t.pending && decide (t.deadline ≤ now))

/-- The deadlines of the pending timers. -/
def Runtime.pendingDeadlines (rt : Runtime) : List Int :=
  (rt.timers.filter (fun t => t.pending)).map (fun t => t.deadline)

/-! ## `ui.go` -/

/-- The variable `cicleable` (ui.go:13). -/
def cicleable : List String := ["status", "delay", "headers", "body", "request"]

/-- The method `readOnlyEditor.Edit` (ui.go:23): the call it makes on the view, if any. -/
def readOnlyEditor.Edit (_v : View) (key : Key) (_ch : Char) : Option ViewOp :=
  if key = .KeyArrowDown then some (.MoveCursor 0 1 true)
  else if key = .KeyArrowUp then some (.MoveCursor 0 (-1) false)
  else if key = .KeyArrowLeft then some (.MoveCursor (-1) 0 false)
  else if key = .KeyArrowRight then some (.MoveCursor 1 0 false)
  else none

/-- The method `statusEditor.Edit` (ui.go:38): the call it makes on the view, if any. -/
def statusEditor.Edit (v : View) (key : Key) (ch : Char) : Option ViewOp :=
  if ch.toNat ≥ 48 ∧ ch.toNat ≤ 57 then
    if len v.Buffer > 4 then none
    else some (.EditWrite ch)
  else if key = .KeyBackspace ∨ key = .KeyBackspace2 then some (.EditDelete true)
  else if key = .KeyArrowLeft then some (.MoveCursor (-1) 0 false)
  else if key = .KeyArrowRight then some (.MoveCursor 1 0 false)
  else none

/-- The struct `UI` (ui.go:54). `infoTimer` is the index of the timer, `none` for `nil`. -/
structure UI where
  resp : Response
  infoTimer : Option Nat
  currentView : String
  deriving DecidableEq, Repr

/-- The function `NewUI` (ui.go:60). -/
def NewUI : UI :=
  { resp := { Status := 200, Headers := [("X-Server", ["HTTPLab"])],
              Body := "Hello, World", Delay := 0 },
    infoTimer := none,
    currentView := "" }

/-- The idiom `if v, err := g.SetView(..); err != nil { if err != gocui.ErrUnknownView
{ return err }; <statements on v> }`, applied to the result of `SetView`: the error to
return, if any, and the GUI after the block, where `init` is the effect of the statements
on the new view. -/
def ifNewView (r : Option GoError × Gui) (name : String) (init : View → View) :
    Option GoError × Gui :=
  match r with
  | (none, g) => (none, g)
  | (some err, g) =>
    if err ≠ .ErrUnknownView then (some err, g)
    else (none, g.updateView name init)

/-- The method `UI.setView` (ui.go:156). -/
def UI.setView (ui : UI) (g : Gui) (view : String) : Option GoError × UI × Gui :=
  match g.SetCurrentView view with
  | (some err, g) => (some err, ui, g)
  | (none, g) => (none, { ui with currentView := view }, g)

/-- The method `UI.setResponseView` (ui.go:110). -/
def UI.setResponseView (sp : SplitAPI) (ui : UI) (g : Gui) (x0 y0 x1 y1 : Int) :
    Option GoError × Gui :=
  let split := sp.Relative (sp.Fixed (sp.NewSplit y1) [2, 3]) [40]
  let n1 := sp.Next split
  match ifNewView (g.SetView "status" x0 y0 x1 n1.1) "status"
      (fun v => ({ v with Title := "Status", Editable := true,
                          Editor := .statusEditor }).Write (fmtInt ui.resp.Status)) with
  | (some err, g) => (some err, g)
  | (none, g) =>
  let c1 := sp.Current n1.2
  let n2 := sp.Next n1.2
  match ifNewView (g.SetView "delay" x0 (c1 + 1) x1 n2.1) "delay"
      (fun v => ({ v with Title := "Delay (ms) ", Editable := true }).Write
        (fmtInt (Int.tdiv ui.resp.Delay Millisecond))) with
  | (some err, g) => (some err, g)
  | (none, g) =>
  let c2 := sp.Current n2.2
  let n3 := sp.Next n2.2
  match ifNewView (g.SetView "headers" x0 (c2 + 1) x1 n3.1) "headers"
      (fun v => ui.resp.Headers.foldl
        (fun v kv => v.Write (kv.1 ++ ": " ++ ui.resp.Headers.Get kv.1 ++ "\n"))
        { v with Editable := true, Title := "Headers" }) with
  | (some err, g) => (some err, g)
  | (none, g) =>
  match ifNewView (g.SetView "body" x0 (sp.Current n3.2 + 1) x1 y1) "body"
      (fun v => ({ v with Editable := true, Title := "Body" }).Write ui.resp.Body) with
  | (some err, g) => (some err, g)
  | (none, g) => (none, g)

/-- The method `UI.Layout` (ui.go:81). The result of `ui.setView` is dropped, as in the
source. -/
def UI.Layout (sp : SplitAPI) (ui : UI) (g : Gui) : Option GoError × UI × Gui :=
  let maxX := g.Size.1
  let maxY := g.Size.2
  let splitX := sp.Relative (sp.NewSplit maxX) [70]
  let splitY := sp.Fixed (sp.NewSplit maxY) [maxY - 4]
  let nx := sp.Next splitX
  let ny := sp.Next splitY
  match ifNewView (g.SetView "request" 0 0 nx.1 ny.1) "request"
      (fun v => { v with Title := "Request", Editable := true,
                         Editor := .readOnlyEditor }) with
  | (some err, g) => (some err, ui, g)
  | (none, g) =>
  match ui.setResponseView sp g (sp.Current nx.2) 0 (maxX - 1) (sp.Current ny.2) with
  | (some err, g) => (some err, ui, g)
  | (none, g) =>
  match ifNewView (g.SetView "info" 0 (sp.Current ny.2 + 1) (maxX - 1) (maxY - 1)) "info"
      (fun v => v) with
  | (some err, g) => (some err, ui, g)
  | (none, g) =>
  let r := ui.setView g "status"
  (none, r.2.1, r.2.2)

/-- The method `UI.Info` (ui.go:165), with `msg` the text `fmt.Fprintf(v, format, args...)`
writes. -/
def UI.Info (ui : UI) (g : Gui) (rt : Runtime) (msg : String) : UI × Gui × Runtime :=
  match g.View "info" with
  | none => (ui, g, rt)
  | some _ =>
    let g := g.updateView "info" (fun v => (v.Clear).Write msg)
    let rt := match ui.infoTimer with
      | some t => rt.Stop t
      | none => rt
    let r := rt.AfterFunc (3 * Second)
    ({ ui with infoTimer := some r.1 }, g, r.2)

/-- The method `UI.Response` (ui.go:200). -/
def UI.Response (ui : UI) : httplab.Response := ui.resp

/-- The function `quit` (ui.go:270). -/
def quit (_g : Gui) (_v : Option View) : Option GoError := some .ErrQuit

/-- The method `UI.bindKeys` (ui.go:204). -/
def UI.bindKeys (_ui : UI) (g : Gui) : Option GoError × Gui :=
  match g.SetKeybinding "" .KeyCtrlC .quit with
  | (some err, g) => (some err, g)
  | (none, g) =>
  match g.SetKeybinding "" .KeyCtrlS .saveResponse with
  | (some err, g) => (some err, g)
  | (none, g) =>
  match g.SetKeybinding "" .KeyTab .cicleViews with
  | (some err, g) => (some err, g)
  | (none, g) => (none, g)

/-- The method `UI.Init` (ui.go:71). The results of `ui.Layout` and `ui.bindKeys` are
dropped, as in the source. -/
def UI.Init (sp : SplitAPI) (ui : UI) (g : Gui) : Option GoError × UI × Gui :=
  let g := { g with Cursor := true, Highlight := true, SelFgColor := .ColorGreen }
  let l := ui.Layout sp g
  let b := l.2.1.bindKeys l.2.2
  (none, l.2.1, b.2)

/-- The loop of `cicleViews` (ui.go:227): the value of `next` after it. -/
def cicleNext (curName : String) (next0 : String) : String :=
  cicleable.enum.foldl
    (fun next iv =>
      if iv.2 = curName then cicleable.getD ((iv.1 + 1) % cicleable.length) "" else next)
    next0

/-- The method `UI.cicleViews` (ui.go:220); `cur` is the view that has the focus, `none`
for `nil`. -/
def UI.cicleViews (_ui : UI) (g : Gui) (cur : Option View) : Option GoError × Gui :=
  let next := cicleable.getD 0 ""
  match cur with
  | none => g.SetCurrentView next
  | some cur => g.SetCurrentView (cicleNext cur.name next)

/-- The function `getViewBuffer` (ui.go:237). -/
def getViewBuffer (g : Gui) (view : String) : String :=
  match g.View view with
  | none => ""
  | some v => v.Buffer

/-- The method `UI.saveResponse` (ui.go:245). `NewResponse` is defined outside `ui.go` and
is a parameter: any function from the three pane texts to a response or an error. -/
def UI.saveResponse
    (NewResponse : String → String → String → Except GoError httplab.Response)
    (ui : UI) (g : Gui) (rt : Runtime) (_v : Option View) :
    Option GoError × UI × Gui × Runtime :=
  let status := getViewBuffer g "status"
  let headers := getViewBuffer g "headers"
  let body := getViewBuffer g "body"
  match NewResponse status headers body with
  | .error err => (none, ui.Info g rt err.Error)
  | .ok resp =>
    let delay := getViewBuffer g "delay"
    let delay := strings.Trim delay " \n"
    match strconv.Atoi delay with
    | .error _ => (none, ui.Info g rt ("Can't parse '" ++ delay ++ "' as number"))
    | .ok intDelay =>
      let resp := { resp with Delay := wrapInt64 (intDelay * Millisecond) }
      let ui := { ui with resp := resp }
      (none, ui.Info g rt "Response saved!")

/-- The method `UI.Display` (ui.go:185); the update handed to `g.Execute` is run by the
main loop, here at once. -/
def UI.Display (_ui : UI) (g : Gui) (view : String) (bytes : String) : Option GoError × Gui :=
  match g.View view with
  | none => (some .ErrUnknownView, g)
  | some _ => (none, g.updateView view (fun v => (v.Clear).Write bytes))

/-! ## The `SetView` blocks of the layout as a list

`Layout` and `setResponseView` are a sequence of blocks of one shape, each placing one named
pane. The lists below name the panes, rectangles and initialisations of these blocks, so
that facts about every block are proved once. -/

/-- One `SetView` block: the pane, its rectangle, and what is done to the pane when it is
new. -/
structure Placement where
  name : String
  x0 : Int
  y0 : Int
  x1 : Int
  y1 : Int
  init : View → View

/-- Runs one block. -/
def place (g : Gui) (p : Placement) : Option GoError × Gui :=
  ifNewView (g.SetView p.name p.x0 p.y0 p.x1 p.y1) p.name p.init

/-- Runs the blocks in order, returning at the first error. -/
def placeAll : List Placement → Gui → Option GoError × Gui
  | [], g => (none, g)
  | p :: ps, g =>
    match place g p with
    | (some err, g) => (some err, g)
    | (none, g) => placeAll ps g

/-- The four blocks of `setResponseView`. -/
def responsePlacements (sp : SplitAPI) (ui : UI) (x0 y0 x1 y1 : Int) : List Placement :=
  let split := sp.Relative (sp.Fixed (sp.NewSplit y1) [2, 3]) [40]
  let n1 := sp.Next split
  let n2 := sp.Next n1.2
  let n3 := sp.Next n2.2
  [ { name := "status", x0 := x0, y0 := y0, x1 := x1, y1 := n1.1,
      init := fun v => ({ v with Title := "Status", Editable := true,
                                 Editor := .statusEditor }).Write (fmtInt ui.resp.Status) },
    { name := "delay", x0 := x0, y0 := sp.Current n1.2 + 1, x1 := x1, y1 := n2.1,
      init := fun v => ({ v with Title := "Delay (ms) ", Editable := true }).Write
        (fmtInt (Int.tdiv ui.resp.Delay Millisecond)) },
    { name := "headers", x0 := x0, y0 := sp.Current n2.2 + 1, x1 := x1, y1 := n3.1,
      init := fun v => ui.resp.Headers.foldl
        (fun v kv => v.Write (kv.1 ++ ": " ++ ui.resp.Headers.Get kv.1 ++ "\n"))
        { v with Editable := true, Title := "Headers" } },
    { name := "body", x0 := x0, y0 := sp.Current n3.2 + 1, x1 := x1, y1 := y1,
      init := fun v => ({ v with Editable := true, Title := "Body" }).Write ui.resp.Body } ]

/-- The six blocks of `Layout`, those of `setResponseView` included. -/
def layoutPlacements (sp : SplitAPI) (ui : UI) (maxX maxY : Int) : List Placement :=
  let nx := sp.Next (sp.Relative (sp.NewSplit maxX) [70])
  let ny := sp.Next (sp.Fixed (sp.NewSplit maxY) [maxY - 4])
  [ { name := "request", x0 := 0, y0 := 0, x1 := nx.1, y1 := ny.1,
      init := fun v => { v with Title := "Request", Editable := true,
                                Editor := .readOnlyEditor } } ]
    ++ responsePlacements sp ui (sp.Current nx.2) 0 (maxX - 1) (sp.Current ny.2)
    ++ [ { name := "info", x0 := 0, y0 := sp.Current ny.2 + 1, x1 := maxX - 1, y1 := maxY - 1,
           init := fun v => v } ]

/-- What a pane holds apart from its rectangle: title, editable flag, editor and buffer. -/
def View.content (v : View) : String × Bool × httplab.Editor × List (List Char) :=
  (v.Title, v.Editable, v.Editor, v.lines)

/-! ## Runs of the program -/

/-- A pending timer that is due fires, and is pending no more. -/
def fire (now : Int) (t : Timer) : Timer :=
  if t.pending && decide (t.deadline ≤ now) then { t with pending := false } else t

/-- The passage of `d` nanoseconds: every pending timer that is due by then fires, in
creation order (which is the order of the deadlines, as the clock never goes back and all
timers run for the same duration). The callback of ui.go:177 hands the clearing of the info
pane to the main loop, which is taken to run it at once; the time is logged. -/
def advance (g : Gui) (rt : Runtime) (d : Nat) : Gui × Runtime :=
  let now := rt.now + d
  let due := dueTimers now rt.timers
  (due.foldl (fun g _ => g.updateView "info" View.Clear) g,
   { now := now, timers := rt.timers.map (fire now),
     clears := rt.clears ++ due.map (fun t => t.deadline) })

/-- The whole state of the running program. -/
structure World where
  ui : UI
  g : Gui
  rt : Runtime

/-- What can happen to the running program: a call of `Info`, time passing, a layout pass,
the keys bound to `cicleViews` and `saveResponse` (with the `NewResponse` in force), a call
of `Display`, and the editing of a pane, which may leave any buffer. -/
inductive Event where
  | info (msg : String)
  | wait (d : Nat)
  | layout
  | tab
  | save (NewResponse : String → String → String → Except GoError Response)
  | display (view : String) (bytes : String)
  | edit (view : String) (lines : List (List Char))

/-- One event. -/
def World.step (sp : SplitAPI) (w : World) : Event → World
  | .info msg =>
    let r := w.ui.Info w.g w.rt msg
    { ui := r.1, g := r.2.1, rt := r.2.2 }
  | .wait d =>
    let r := advance w.g w.rt d
    { ui := w.ui, g := r.1, rt := r.2 }
  | .layout =>
    let r := w.ui.Layout sp w.g
    { ui := r.2.1, g := r.2.2, rt := w.rt }
  | .tab => { ui := w.ui, g := (w.ui.cicleViews w.g w.g.CurrentView).2, rt := w.rt }
  | .save nr =>
    let r := w.ui.saveResponse nr w.g w.rt w.g.CurrentView
    { ui := r.2.1, g := r.2.2.1, rt := r.2.2.2 }
  | .display view bytes => { ui := w.ui, g := (w.ui.Display w.g view bytes).2, rt := w.rt }
  | .edit view lines =>
    { ui := w.ui, g := w.g.updateView view (fun v => { v with lines := lines }), rt := w.rt }

/-- A sequence of events. -/
def World.run (sp : SplitAPI) (w : World) (evs : List Event) : World :=
  evs.foldl (World.step sp) w

/-- The program at start: the UI of `NewUI`, some GUI, the clock at some time, no timer. -/
def World.start (g : Gui) (now : Int) : World :=
  { ui := NewUI, g := g, rt := { now := now, timers := [], clears := [] } }

/-- The states the program can be in. -/
def Reachable (sp : SplitAPI) (w : World) : Prop :=
  ∃ g now evs, w = (World.start g now).run sp evs

/-- The UI states reached from `NewUI` by calls of `saveResponse`, with any pane texts and
any `NewResponse`, in which every delay text that parses denotes an integer satisfying
`P`. -/
inductive SavedFrom (P : Int → Prop) : UI → Prop where
  | start : SavedFrom P NewUI
  | save (ui : UI) (nr : String → String → String → Except GoError Response)
      (g : Gui) (rt : Runtime) (v : Option View) :
      SavedFrom P ui →
      (∀ n, strconv.Atoi (strings.Trim (getViewBuffer g "delay") " \n") = .ok n → P n) →
      SavedFrom P (ui.saveResponse nr g rt v).2.1

/-- The integer `n` counts milliseconds that fit a `time.Duration`: `n * time.Millisecond`
does not overflow 64 bits. -/
def fitsDuration (n : Int) : Prop :=
  -(2 ^ 63) ≤ n * Millisecond ∧ n * Millisecond < 2 ^ 63

/-! ## The spec's wording, for comparison with the code -/

/-- Follows the spec, section 4.5: `Next(current)` is the first entry when `current` is
none or not in the list, and otherwise the entry following `current`, wrapping to the
first after the last. -/
def specNext (current : Option String) : String :=
  match current with
  | none => "status"
  | some c =>
    match cicleable.indexOf? c with
    | none => "status"
    | some i => if i + 1 < cicleable.length then cicleable.getD (i + 1) "" else "status"

/-- Follows the spec, section 4.4 ("trim whitespace"): the white space characters. -/
def isWhitespace (c : Char) : Bool :=
  decide (c.toNat ∈ [9, 10, 11, 12, 13, 32, 133, 160])

/-- Follows the spec, section 4.4: the text without surrounding white space. -/
def trimWhitespace (s : String) : String :=
  String.mk ((s.toList.dropWhile isWhitespace).reverse.dropWhile isWhitespace).reverse

/-- Follows the spec, section 4.2: the headers as one `key: value` line per value, a key
with several values repeated. -/
def linePerValue (h : Header) : String :=
  String.join (h.map (fun kv => String.join (kv.2.map (fun v => kv.1 ++ ": " ++ v ++ "\n"))))

/-- What the code writes: one `key: value` line per key, with the value `Get` returns. -/
def linePerKey (h : Header) : String :=
  String.join (h.map (fun kv => kv.1 ++ ": " ++ h.Get kv.1 ++ "\n"))

/-! ## Concrete states -/

/-- A GUI without views on a terminal of the given size. -/
def emptyGui (maxX maxY : Int) : Gui :=
  { views := [], currentView := none, maxX := maxX, maxY := maxY, Cursor := false,
    Highlight := false, SelFgColor := .ColorDefault, keybindings := [] }

/-- The GUI after `Init` on a terminal of 100 columns and 40 rows. -/
def startGui : Gui := (NewUI.Init specSplit (emptyGui 100 40)).2.2

/-- The GUI `startGui` with the text of one pane replaced, by `Display`. -/
def withText (g : Gui) (view text : String) : Gui := (NewUI.Display g view text).2

/-- A runtime at time 0 without timers. -/
def freshRuntime : Runtime := { now := 0, timers := [], clears := [] }

/-- A `NewResponse` that accepts every text. -/
def acceptAll (_status _headers _body : String) : Except GoError Response :=
  .ok { Status := 404, Headers := [("A", ["B"])], Body := "x", Delay := 0 }

/-- A `NewResponse` that rejects every text. -/
def rejectAll (_status _headers _body : String) : Except GoError Response :=
  .error (.other "Status: invalid syntax")

/-- The UI after the focus was given to the body pane, by `setView`. -/
def focusBodyUI : UI := (NewUI.setView startGui "body").2.1

/-- The GUI after the focus was given to the body pane, by `setView`. -/
def focusBodyGui : Gui := (NewUI.setView startGui "body").2.2

instance (n : Int) : Decidable (fitsDuration n) := by
  unfold fitsDuration; infer_instance

/-- A stand-in for `NewResponse` in the concrete cases: it parses the status as `Atoi` does
and takes the body as it is. -/
def statusOnly (status _headers body : String) : Except GoError Response :=
  match strconv.Atoi (strings.Trim status " \r\n") with
  | .error err => .error err
  | .ok code => .ok { Status := code, Headers := [], Body := body, Delay := 0 }

/-- The UI after the Response of the spec's example was saved: status 404, header `A: B`,
body `x`, delay 50 ms. -/
def savedUI : UI :=
  { NewUI with resp := { Status := 404, Headers := [("A", ["B"])], Body := "x",
                         Delay := 50 * Millisecond } }

/-- The panes after start, with `abc` typed into the status pane. -/
def statusAbcGui : Gui := withText startGui "status" "abc"

/-- The panes after start, with `abc` typed into the delay pane. -/
def delayAbcGui : Gui := withText startGui "delay" "abc"

/-- The panes after start, with `100` typed into the delay pane. -/
def delay100Gui : Gui := withText startGui "delay" "100"

/-- The panes after start, with `100` and a tab in the delay pane. -/
def delayTabGui : Gui := withText startGui "delay" "100\t"

/-- The panes after start, with `-5` typed into the delay pane. -/
def delayMinus5Gui : Gui := withText startGui "delay" "-5"

/-- The three pane texts `saveResponse` hands to `NewResponse`. -/
def paneTexts (g : Gui) : String × String × String :=
  (getViewBuffer g "status", getViewBuffer g "headers", getViewBuffer g "body")

/-- The delay text as `saveResponse` hands it to `Atoi`: the text of the delay pane without
surrounding spaces and newlines. -/
def delayText (g : Gui) : String := strings.Trim (getViewBuffer g "delay") " \n"

/-- The text has no newline and no carriage return. -/
def oneLine (s : String) : Prop := ∀ c ∈ s.toList, c ≠ '\n' ∧ c ≠ '\r'

/-- A UI whose Response has a header with two values. -/
def twoValuesUI : UI :=
  { NewUI with resp := { Status := 200, Headers := [("A", ["1", "2"])], Body := "", Delay := 0 } }

/-- The GUI after `setResponseView` created the panes for `twoValuesUI`. -/
def twoValuesGui : Gui :=
  (twoValuesUI.setResponseView specSplit (emptyGui 100 40) 70 0 99 36).2

/-- The characters a pane holds: those of its lines, the line breaks not counted. -/
def View.chars (v : View) : Nat := (v.lines.map List.length).sum

/-- The status pane of `startGui` with the given digits in its one line. -/
def statusPane (digits : String) : View :=
  { name := "status", x0 := 70, y0 := 0, x1 := 99, y1 := 2, Title := "Status",
    Editable := true, Editor := .statusEditor, lines := [digits.toList], plain := true }

/-- A pane of one line holding the letter e with an acute accent twice. -/
def accentPane : View :=
  { (statusPane "") with lines := [[Char.ofNat 233, Char.ofNat 233]] }

instance (s : String) : Decidable (oneLine s) := by
  unfold oneLine; infer_instance

/-- A UI whose Response has two header keys, one of them with two values. -/
def twoKeysUI : UI :=
  { NewUI with resp := { Status := 200, Headers := [("A", ["1", "2"]), ("B", ["3"])],
                         Body := "", Delay := 0 } }

/-- The headers pane `setResponseView` creates for the Response of `twoKeysUI`. -/
def twoKeysHeadersPane : View :=
  { name := "headers", x0 := 70, y0 := 6, x1 := 99, y1 := 19, Title := "Headers",
    Editable := true, Editor := .DefaultEditor, lines := ["A: 1".toList, "B: 3".toList, []],
    plain := true }

/-! ## Notions used in the proofs -/

/-- A function on views that keeps the name. -/
def KeepsName (f : View → View) : Prop := ∀ v, (f v).name = v.name

/-- The rectangle and name of a block are such that `SetView` accepts them. -/
def Placement.valid (p : Placement) : Prop := p.x0 < p.x1 ∧ p.y0 < p.y1 ∧ p.name ≠ ""

/-- The rectangle the pane of that name has in the GUI. -/
def Placement.placed (p : Placement) (g : Gui) : Prop :=
  ∃ v, g.View p.name = some v ∧ v.x0 = p.x0 ∧ v.y0 = p.y0 ∧ v.x1 = p.x1 ∧ v.y1 = p.y1

/-- A function on views that keeps the rectangle. -/
def KeepsRect (f : View → View) : Prop :=
  ∀ v, (f v).x0 = v.x0 ∧ (f v).y0 = v.y0 ∧ (f v).x1 = v.x1 ∧ (f v).y1 = v.y1

/-- The fields of the GUI other than its views. -/
def Gui.rest (g : Gui) : Option String × Int × Int × Bool × Bool × Attribute × List Keybinding :=
  (g.currentView, g.maxX, g.maxY, g.Cursor, g.Highlight, g.SelFgColor, g.keybindings)

/-- Where a block puts its pane: the name and the rectangle. -/
def Placement.spot (p : Placement) : String × Int × Int × Int × Int :=
  (p.name, p.x0, p.y0, p.x1, p.y1)

/-- The timers once the one the UI holds in `infoTimer` is stopped. -/
def stoppedTimers (ui : UI) (rt : Runtime) : List Timer :=
  match ui.infoTimer with
  | some i => stopAt i rt.timers
  | none => rt.timers

/-- The only timer that can be pending is the one the UI holds in `infoTimer`. -/
def Tracked (ui : UI) (rt : Runtime) : Prop :=
  ∀ t ∈ stoppedTimers ui rt, t.pending = false

/-! ## Views of a GUI -/

theorem find_updateFirst (n m : String) (f : View → View) (hf : KeepsName f) (vs : List View) :
    (updateFirst n f vs).find? (fun v => v.name = m) =
      if m = n then (vs.find? (fun v => v.name = m)).map f
      else vs.find? (fun v => v.name = m) := by
  induction vs with
  | nil => simp [updateFirst]
  | cons v vs ih =>
    by_cases hv : v.name = n
    · by_cases hm : m = n
      · subst hm
        simp [updateFirst, hv, List.find?_cons, hf v]
      · have hnm : ¬ n = m := fun h => hm h.symm
        simp [updateFirst, hv, List.find?_cons, hf v, hm, hnm]
    · by_cases hvm : v.name = m
      · have hm : ¬ m = n := fun h => hv (hvm ▸ h)
        simp [updateFirst, hv, List.find?_cons, hvm, hm]
      · simp [updateFirst, hv, List.find?_cons, hvm, ih]

theorem View_updateView (g : Gui) (n m : String) (f : View → View) (hf : KeepsName f) :
    (g.updateView n f).View m = if m = n then (g.View m).map f else g.View m := by
  simp [Gui.View, Gui.updateView, find_updateFirst n m f hf]

theorem updateFirst_append_new (n : String) (f : View → View) (vs : List View) (nv : View)
    (hnew : vs.find? (fun v => v.name = n) = none) (hnv : nv.name = n) :
    updateFirst n f (vs ++ [nv]) = vs ++ [f nv] := by
  induction vs with
  | nil => simp [updateFirst, hnv]
  | cons v vs ih =>
    by_cases hv : v.name = n
    · simp [List.find?_cons, hv] at hnew
    · simp [List.find?_cons, hv] at hnew
      simp [updateFirst, hv]
      simpa using ih (by simpa using hnew)

theorem updateFirst_id (n : String) (f : View → View) (vs : List View)
    (h : ∀ v, vs.find? (fun v => v.name = n) = some v → f v = v) :
    updateFirst n f vs = vs := by
  induction vs with
  | nil => simp [updateFirst]
  | cons v vs ih =>
    by_cases hv : v.name = n
    · simp [updateFirst, hv]
      exact h v (by simp [List.find?_cons, hv])
    · simp [updateFirst, hv]
      apply ih
      intro w hw
      apply h
      simp [List.find?_cons, hv, hw]

theorem place_invalid (g : Gui) (p : Placement) (h : ¬ p.valid) :
    (place g p).1 ≠ none ∧ (place g p).2 = g ∧
      ∀ (g2 : Gui) (init : View → View), place g2 { p with init := init } = ((place g p).1, g2) := by
  unfold Placement.valid at h
  by_cases h1 : p.x0 ≥ p.x1 ∨ p.y0 ≥ p.y1
  · simp [place, Gui.SetView, h1, ifNewView]
  · have h2 : p.name = "" := by
      by_contra hn
      apply h
      push_neg at h1
      exact ⟨h1.1, h1.2, hn⟩
    simp [place, Gui.SetView, h1, h2, ifNewView]

theorem keepsName_setRect (x0 y0 x1 y1 : Int) :
    KeepsName (fun v => { v with x0 := x0, y0 := y0, x1 := x1, y1 := y1 }) := fun _ => rfl

theorem place_existing (g : Gui) (p : Placement) (h : p.valid) (v : View)
    (hv : g.View p.name = some v) :
    place g p = (none, g.updateView p.name
      (fun v => { v with x0 := p.x0, y0 := p.y0, x1 := p.x1, y1 := p.y1 })) := by
  obtain ⟨hx, hy, hn⟩ := h
  have h1 : ¬ (p.x0 ≥ p.x1 ∨ p.y0 ≥ p.y1) := by omega
  simp [place, Gui.SetView, h1, hn, hv, ifNewView]

theorem place_new (g : Gui) (p : Placement) (h : p.valid) (hv : g.View p.name = none) :
    place g p = (none, { g with views := g.views ++
      [p.init (newView p.name p.x0 p.y0 p.x1 p.y1)] }) := by
  obtain ⟨hx, hy, hn⟩ := h
  have h1 : ¬ (p.x0 ≥ p.x1 ∨ p.y0 ≥ p.y1) := by omega
  simp [place, Gui.SetView, h1, hn, hv, ifNewView, Gui.updateView]
  exact updateFirst_append_new p.name p.init g.views _ hv rfl

theorem place_cases (g : Gui) (p : Placement) :
    ((place g p).1 ≠ none ∧ (place g p).2 = g) ∨
    ((place g p).1 = none ∧ ∃ v, g.View p.name = some v ∧ (place g p).2 = g.updateView p.name
      (fun v => { v with x0 := p.x0, y0 := p.y0, x1 := p.x1, y1 := p.y1 })) ∨
    ((place g p).1 = none ∧ g.View p.name = none ∧ (place g p).2 = { g with views := g.views ++
      [p.init (newView p.name p.x0 p.y0 p.x1 p.y1)] }) := by
  by_cases h : p.valid
  · cases hv : g.View p.name with
    | none => right; right; simp [place_new g p h hv]
    | some v => right; left; simp [place_existing g p h v hv]
  · left; exact ⟨(place_invalid g p h).1, (place_invalid g p h).2.1⟩

theorem place_rest (g : Gui) (p : Placement) : (place g p).2.rest = g.rest := by
  rcases place_cases g p with h | ⟨_, v, _, h⟩ | ⟨_, _, h⟩
  · rw [h.2]
  · rw [h]; rfl
  · rw [h]; rfl

theorem place_view_other (g : Gui) (p : Placement) (hp : KeepsName p.init) (m : String)
    (hm : m ≠ p.name) : (place g p).2.View m = g.View m := by
  rcases place_cases g p with h | ⟨_, v, _, h⟩ | ⟨_, _, h⟩
  · rw [h.2]
  · rw [h, View_updateView _ _ _ _ (keepsName_setRect _ _ _ _)]; simp [hm]
  · rw [h]
    have : ¬ (p.init (newView p.name p.x0 p.y0 p.x1 p.y1)).name = m := by
      rw [hp]; exact fun h => hm h.symm
    simp [Gui.View, List.find?_append, this]

theorem place_view_existing (g : Gui) (p : Placement) (v : View) (hv : g.View p.name = some v) :
    (place g p).2.View p.name = some v ∨
    (place g p).2.View p.name =
      some { v with x0 := p.x0, y0 := p.y0, x1 := p.x1, y1 := p.y1 } := by
  rcases place_cases g p with h | ⟨_, v, _, h⟩ | ⟨_, hn, h⟩
  · left; rw [h.2, hv]
  · right; rw [h, View_updateView _ _ _ _ (keepsName_setRect _ _ _ _)]; simp [hv]
  · rw [hv] at hn; cases hn

theorem place_view_new (g : Gui) (p : Placement) (hp : KeepsName p.init)
    (hv : g.View p.name = none) :
    (place g p).2.View p.name = none ∨
    (place g p).2.View p.name = some (p.init (newView p.name p.x0 p.y0 p.x1 p.y1)) := by
  rcases place_cases g p with h | ⟨_, v, hv2, h⟩ | ⟨_, hn, h⟩
  · left; rw [h.2, hv]
  · rw [hv] at hv2; cases hv2
  · right
    rw [h]
    have hnm : (p.init (newView p.name p.x0 p.y0 p.x1 p.y1)).name = p.name := by rw [hp]; rfl
    have hv2 : List.find? (fun v => decide (v.name = p.name)) g.views = none := hv
    simp [Gui.View, List.find?_append, hnm, hv2]

theorem place_ok_placed (g : Gui) (p : Placement) (hp : KeepsName p.init)
    (hr : KeepsRect p.init) (h : (place g p).1 = none) : p.valid ∧ p.placed (place g p).2 := by
  have hval : p.valid := by
    by_contra hc
    exact (place_invalid g p hc).1 h
  refine ⟨hval, ?_⟩
  cases hv : g.View p.name with
  | some v =>
    rw [place_existing g p hval v hv]
    refine ⟨{ v with x0 := p.x0, y0 := p.y0, x1 := p.x1, y1 := p.y1 }, ?_, rfl, rfl, rfl, rfl⟩
    rw [View_updateView _ _ _ _ (keepsName_setRect _ _ _ _)]; simp [hv]
  | none =>
    rw [place_new g p hval hv]
    have hnm : (p.init (newView p.name p.x0 p.y0 p.x1 p.y1)).name = p.name := by rw [hp]; rfl
    have hv2 : List.find? (fun v => decide (v.name = p.name)) g.views = none := hv
    rcases place_view_new g p hp hv with h2 | h2
    · rw [place_new g p hval hv] at h2
      simp [Gui.View, List.find?_append, hnm, hv2] at h2
    · rw [place_new g p hval hv] at h2
      obtain ⟨r0, r1, r2, r3⟩ := hr (newView p.name p.x0 p.y0 p.x1 p.y1)
      exact ⟨_, h2, r0, r1, r2, r3⟩

/-! ## Sequences of blocks -/

theorem placeAll_rest (ps : List Placement) (g : Gui) : (placeAll ps g).2.rest = g.rest := by
  induction ps generalizing g with
  | nil => rfl
  | cons p ps ih =>
    have h := place_rest g p
    unfold placeAll
    rcases hp : place g p with ⟨e, g1⟩
    rw [hp] at h
    cases e with
    | none => simp only; rw [ih g1]; exact h
    | some err => exact h

theorem placeAll_view_other (ps : List Placement) (hk : ∀ p ∈ ps, KeepsName p.init)
    (g : Gui) (m : String) (hm : ∀ p ∈ ps, m ≠ p.name) : (placeAll ps g).2.View m = g.View m := by
  induction ps generalizing g with
  | nil => rfl
  | cons p ps ih =>
    have h := place_view_other g p (hk p (by simp)) m (hm p (by simp))
    unfold placeAll
    rcases hp : place g p with ⟨e, g1⟩
    rw [hp] at h
    cases e with
    | none =>
      simp only
      rw [ih (fun q hq => hk q (by simp [hq])) g1 (fun q hq => hm q (by simp [hq]))]; exact h
    | some err => exact h

theorem place_content (g : Gui) (p : Placement) (hp : KeepsName p.init) (m : String) (v : View)
    (hv : g.View m = some v) :
    ∃ v2, (place g p).2.View m = some v2 ∧ v2.content = v.content := by
  by_cases hm : m = p.name
  · subst hm
    rcases place_view_existing g p v hv with h | h
    · exact ⟨v, h, rfl⟩
    · exact ⟨_, h, rfl⟩
  · exact ⟨v, by rw [place_view_other g p hp m hm, hv], rfl⟩

theorem placeAll_content (ps : List Placement) (hk : ∀ p ∈ ps, KeepsName p.init)
    (g : Gui) (m : String) (v : View) (hv : g.View m = some v) :
    ∃ v2, (placeAll ps g).2.View m = some v2 ∧ v2.content = v.content := by
  induction ps generalizing g v with
  | nil => exact ⟨v, hv, rfl⟩
  | cons p ps ih =>
    obtain ⟨v1, h1, c1⟩ := place_content g p (hk p (by simp)) m v hv
    unfold placeAll
    rcases hp : place g p with ⟨e, g1⟩
    rw [hp] at h1
    cases e with
    | none =>
      simp only
      obtain ⟨v2, h2, c2⟩ := ih (fun q hq => hk q (by simp [hq])) g1 v1 h1
      exact ⟨v2, h2, c2.trans c1⟩
    | some err => exact ⟨v1, h1, c1⟩

theorem placeAll_ok_exists (ps : List Placement) (hk : ∀ p ∈ ps, KeepsName p.init)
    (hr : ∀ p ∈ ps, KeepsRect p.init)
    (g : Gui) (h : (placeAll ps g).1 = none) :
    ∀ p ∈ ps, ((placeAll ps g).2.View p.name).isSome := by
  induction ps generalizing g with
  | nil => simp
  | cons p ps ih =>
    unfold placeAll at h ⊢
    have h0 := place_ok_placed g p (hk p (by simp)) (hr p (by simp))
    rcases hp : place g p with ⟨e, g1⟩
    rw [hp] at h h0
    cases e with
    | some err => simp at h
    | none =>
      simp only at h ⊢
      intro q hq
      rcases List.mem_cons.1 hq with rfl | hq
      · obtain ⟨_, v, hv, _⟩ := h0 rfl
        obtain ⟨v2, h2, _⟩ := placeAll_content ps (fun q hq => hk q (by simp [hq])) g1 _ v hv
        simp [h2]
      · exact ih (fun q hq => hk q (by simp [hq])) (fun q hq => hr q (by simp [hq])) g1 h q hq

/-! ## `Layout` and `setResponseView` as sequences of blocks -/

theorem setResponseView_eq (sp : SplitAPI) (ui : UI) (g : Gui) (x0 y0 x1 y1 : Int) :
    ui.setResponseView sp g x0 y0 x1 y1 = placeAll (responsePlacements sp ui x0 y0 x1 y1) g := by
  rfl

theorem placeAll_append (ps qs : List Placement) (g : Gui) :
    placeAll (ps ++ qs) g =
      match placeAll ps g with
      | (some err, g) => (some err, g)
      | (none, g) => placeAll qs g := by
  induction ps generalizing g with
  | nil => rfl
  | cons p ps ih =>
    simp only [List.cons_append, placeAll]
    rcases hp : place g p with ⟨e, g1⟩
    cases e with
    | none => simp only; exact ih g1
    | some err => rfl

theorem Layout_eq (sp : SplitAPI) (ui : UI) (g : Gui) :
    ui.Layout sp g =
      match placeAll (layoutPlacements sp ui g.maxX g.maxY) g with
      | (some err, g) => (some err, ui, g)
      | (none, g) => (none, (ui.setView g "status").2.1, (ui.setView g "status").2.2) := by
  unfold layoutPlacements
  simp only [placeAll_append, ← setResponseView_eq]
  simp only [placeAll, place, UI.Layout, Gui.Size]
  rcases ifNewView (g.SetView "request" 0 0 _ _) "request" _ with ⟨e, g1⟩
  cases e with
  | some err => rfl
  | none =>
    simp only
    rcases ui.setResponseView sp g1 _ _ _ _ with ⟨e, g2⟩
    cases e with
    | some err => rfl
    | none =>
      simp only
      rcases ifNewView (g2.SetView "info" _ _ _ _) "info" _ with ⟨e, g3⟩
      cases e <;> rfl

theorem foldl_Write_frame (h : List (String × List String)) (line : String × List String → String)
    (v : View) :
    let w := h.foldl (fun v kv => v.Write (line kv)) v
    w.name = v.name ∧ w.x0 = v.x0 ∧ w.y0 = v.y0 ∧ w.x1 = v.x1 ∧ w.y1 = v.y1 ∧
      w.Title = v.Title ∧ w.Editable = v.Editable ∧ w.Editor = v.Editor := by
  induction h generalizing v with
  | nil => simp
  | cons kv h ih => simpa [View.Write] using ih (v.Write (line kv))

theorem responsePlacements_keep (sp : SplitAPI) (ui : UI) (x0 y0 x1 y1 : Int) :
    ∀ p ∈ responsePlacements sp ui x0 y0 x1 y1, KeepsName p.init ∧ KeepsRect p.init := by
  intro p hp
  simp only [responsePlacements, List.mem_cons, List.mem_singleton, List.not_mem_nil, or_false] at hp
  rcases hp with rfl | rfl | rfl | rfl
  · exact ⟨fun _ => rfl, fun _ => ⟨rfl, rfl, rfl, rfl⟩⟩
  · exact ⟨fun _ => rfl, fun _ => ⟨rfl, rfl, rfl, rfl⟩⟩
  · constructor
    · intro v
      exact (foldl_Write_frame ui.resp.Headers _ _).1
    · intro v
      have h := foldl_Write_frame ui.resp.Headers
        (fun kv => kv.1 ++ ": " ++ ui.resp.Headers.Get kv.1 ++ "\n")
        { v with Editable := true, Title := "Headers" }
      exact ⟨h.2.1, h.2.2.1, h.2.2.2.1, h.2.2.2.2.1⟩
  · exact ⟨fun _ => rfl, fun _ => ⟨rfl, rfl, rfl, rfl⟩⟩

theorem layoutPlacements_keep (sp : SplitAPI) (ui : UI) (maxX maxY : Int) :
    ∀ p ∈ layoutPlacements sp ui maxX maxY, KeepsName p.init ∧ KeepsRect p.init := by
  intro p hp
  simp only [layoutPlacements, List.mem_append, List.mem_singleton] at hp
  rcases hp with (rfl | hp) | rfl
  · exact ⟨fun _ => rfl, fun _ => ⟨rfl, rfl, rfl, rfl⟩⟩
  · exact responsePlacements_keep sp ui _ _ _ _ p hp
  · exact ⟨fun _ => rfl, fun _ => ⟨rfl, rfl, rfl, rfl⟩⟩

theorem layoutPlacements_names (sp : SplitAPI) (ui : UI) (maxX maxY : Int) :
    (layoutPlacements sp ui maxX maxY).map (fun p => p.name) =
      ["request", "status", "delay", "headers", "body", "info"] := rfl

theorem responsePlacements_names (sp : SplitAPI) (ui : UI) (x0 y0 x1 y1 : Int) :
    (responsePlacements sp ui x0 y0 x1 y1).map (fun p => p.name) =
      ["status", "delay", "headers", "body"] := rfl

theorem View_congr (g g2 : Gui) (h : g2.views = g.views) (m : String) : g2.View m = g.View m := by
  simp [Gui.View, h]

theorem place_placed_id (g : Gui) (q : Placement) (hq : q.valid) (h : q.placed g) :
    place g q = (none, g) := by
  obtain ⟨v, hv, h0, h1, h2, h3⟩ := h
  rw [place_existing g q hq v hv]
  have : updateFirst q.name
      (fun v => { v with x0 := q.x0, y0 := q.y0, x1 := q.x1, y1 := q.y1 }) g.views = g.views := by
    apply updateFirst_id
    intro w hw
    have hwv : w = v := by
      have : g.View q.name = some w := hw
      rw [hv] at this
      exact (Option.some.inj this).symm
    subst hwv
    cases w
    simp_all
  simp [Gui.updateView, this]

theorem placeAll_again (ps : List Placement) (hk : ∀ p ∈ ps, KeepsName p.init)
    (hr : ∀ p ∈ ps, KeepsRect p.init) (hn : (ps.map (fun p => p.name)).Nodup)
    (qs : List Placement) (hs : qs.map Placement.spot = ps.map Placement.spot)
    (g g2 : Gui) (hg : g2.views = (placeAll ps g).2.views) :
    placeAll qs g2 = ((placeAll ps g).1, g2) := by
  induction ps generalizing g qs with
  | nil =>
    cases qs with
    | nil => rfl
    | cons q qs => simp at hs
  | cons p ps ih =>
    cases qs with
    | nil => simp at hs
    | cons q qs =>
      simp only [List.map_cons, List.cons.injEq] at hs
      obtain ⟨hpq, hs⟩ := hs
      have hq : q = { p with init := q.init } := by
        cases p; cases q
        simp only [Placement.spot, Prod.mk.injEq] at hpq
        obtain ⟨a, b, c, d, e⟩ := hpq
        subst a b c d e
        rfl
      simp only [List.map_cons, List.nodup_cons] at hn
      by_cases hv : p.valid
      · have hok : (place g p).1 = none := by
          cases h : g.View p.name with
          | none => rw [place_new g p hv h]
          | some v => rw [place_existing g p hv v h]
        have hpl := (place_ok_placed g p (hk p (by simp)) (hr p (by simp)) hok).2
        unfold placeAll at hg ⊢
        rcases hp : place g p with ⟨e, g1⟩
        rw [hp] at hok hpl hg
        simp only at hok
        subst hok
        simp only at hg hpl ⊢
        have hqv : q.valid := by rw [hq]; exact hv
        have hqp : q.placed g2 := by
          obtain ⟨v, h1, h2⟩ := hpl
          have hne : ∀ r ∈ ps, p.name ≠ r.name := by
            intro r hr2 he
            exact hn.1 (List.mem_map.2 ⟨r, hr2, he.symm⟩)
          have h3 := placeAll_view_other ps (fun r hr2 => hk r (by simp [hr2])) g1 p.name hne
          rw [hq]
          refine ⟨v, ?_, h2⟩
          show g2.View p.name = some v
          rw [View_congr _ _ hg, h3, h1]
        rw [place_placed_id g2 q hqv hqp]
        exact ih (fun r hr2 => hk r (by simp [hr2])) (fun r hr2 => hr r (by simp [hr2])) hn.2
          qs hs g1 hg
      · have h1 := place_invalid g p hv
        have h2 := h1.2.2 g2 q.init
        rw [← hq] at h2
        unfold placeAll
        rw [h2]
        rcases hp : place g p with ⟨e, g1⟩
        rw [hp] at h1
        cases e with
        | none => exact absurd rfl h1.1
        | some err => rfl

theorem layoutPlacements_spot (sp : SplitAPI) (ui ui2 : UI) (maxX maxY : Int) :
    (layoutPlacements sp ui2 maxX maxY).map Placement.spot =
      (layoutPlacements sp ui maxX maxY).map Placement.spot := rfl

theorem Layout_ok_status (sp : SplitAPI) (ui : UI) (g : Gui)
    (h : (placeAll (layoutPlacements sp ui g.maxX g.maxY) g).1 = none) :
    ((placeAll (layoutPlacements sp ui g.maxX g.maxY) g).2.View "status").isSome := by
  have hk := layoutPlacements_keep sp ui g.maxX g.maxY
  have := placeAll_ok_exists _ (fun p hp => (hk p hp).1) (fun p hp => (hk p hp).2) g h
  have hmem : "status" ∈ (layoutPlacements sp ui g.maxX g.maxY).map (fun p => p.name) := by
    rw [layoutPlacements_names]; simp
  obtain ⟨p, hp, hpn⟩ := List.mem_map.1 hmem
  have h2 := this p hp
  rw [hpn] at h2
  exact h2

theorem Layout_result (sp : SplitAPI) (ui : UI) (g : Gui) :
    let r := placeAll (layoutPlacements sp ui g.maxX g.maxY) g
    (r.1 ≠ none ∧ ui.Layout sp g = (r.1, ui, r.2)) ∨
    (r.1 = none ∧ ui.Layout sp g =
      (none, { ui with currentView := "status" }, { r.2 with currentView := some "status" })) := by
  intro r
  have he := Layout_eq sp ui g
  have hs := Layout_ok_status sp ui g
  rcases hr : placeAll (layoutPlacements sp ui g.maxX g.maxY) g with ⟨e, g1⟩
  rw [hr] at he hs
  have hr2 : r = (e, g1) := hr
  rw [hr2]
  cases e with
  | some err => left; exact ⟨by simp, he⟩
  | none =>
    right
    refine ⟨rfl, ?_⟩
    rw [he]
    have := hs rfl
    simp only at this
    obtain ⟨v, hv⟩ := Option.isSome_iff_exists.1 this
    simp [UI.setView, Gui.SetCurrentView, hv]

/-! ## Layout: focus, content of existing panes, errors -/

/-- C6, as the code has it: a `Layout` that returns no error leaves the focus, and the focus
the UI records, on "status", whichever pane had the focus before; a `Layout` that returns an
error leaves both as they were. -/
theorem Layout_focus (sp : SplitAPI) (ui : UI) (g : Gui) :
    ((ui.Layout sp g).1 = none →
      (ui.Layout sp g).2.2.currentView = some "status" ∧
      (ui.Layout sp g).2.1.currentView = "status") ∧
    ((ui.Layout sp g).1 ≠ none →
      (ui.Layout sp g).2.2.currentView = g.currentView ∧ (ui.Layout sp g).2.1 = ui) := by
  have hrest := placeAll_rest (layoutPlacements sp ui g.maxX g.maxY) g
  rcases Layout_result sp ui g with ⟨h1, h2⟩ | ⟨h1, h2⟩
  · rw [h2]
    refine ⟨fun h => absurd h h1, fun _ => ⟨?_, rfl⟩⟩
    exact congrArg (fun r => r.1) hrest
  · rw [h2]
    exact ⟨fun _ => ⟨rfl, rfl⟩, fun h => absurd rfl h⟩

/-- C6, on a terminal of 100 by 40 with the focus on "body": the layout succeeds and the
focus ends on "status". -/
theorem Layout_focus_witness :
    (focusBodyUI.Layout specSplit focusBodyGui).1 = none ∧
    ((focusBodyUI.Layout specSplit focusBodyGui).2.2.currentView = some "status" ∧
      (focusBodyUI.Layout specSplit focusBodyGui).2.1.currentView = "status") :=
  ⟨by decide, (Layout_focus specSplit focusBodyUI focusBodyGui).1 (by decide)⟩

/-- C6 as stated fails: the body pane exists and has the focus, also in the UI's record, and
after `Layout` the focus and the record are on "status", not on "body". -/
theorem Layout_steals_focus :
    (focusBodyGui.View "body").isSome = true ∧
    focusBodyGui.currentView = some "body" ∧ focusBodyUI.currentView = "body" ∧
    (focusBodyUI.Layout specSplit focusBodyGui).2.2.currentView ≠ some "body" ∧
    (focusBodyUI.Layout specSplit focusBodyGui).2.1.currentView ≠ "body" := by
  decide

theorem Layout_of_placeAll (sp : SplitAPI) (ui : UI) (g : Gui) (e : Option GoError) (g1 : Gui)
    (hR : placeAll (layoutPlacements sp ui g.maxX g.maxY) g = (e, g1)) :
    (e ≠ none ∧ ui.Layout sp g = (e, ui, g1)) ∨
    (e = none ∧ (g1.View "status").isSome ∧ ∃ g2 : Gui, g2.views = g1.views ∧
      g2.maxX = g1.maxX ∧ g2.maxY = g1.maxY ∧ g2.currentView = some "status" ∧
      ui.Layout sp g = (none, { ui with currentView := "status" }, g2)) := by
  have h := Layout_result sp ui g
  simp only [hR] at h
  rcases h with ⟨h1, h2⟩ | ⟨h1, h2⟩
  · left; exact ⟨h1, h2⟩
  · right
    have hs := Layout_ok_status sp ui g (by rw [hR]; exact h1)
    rw [hR] at hs
    exact ⟨h1, hs, { g1 with currentView := some "status" }, rfl, rfl, rfl, rfl, h2⟩

theorem Layout_second_pass (sp : SplitAPI) (ui ui2 : UI) (g : Gui) :
    (ui2.Layout sp (ui.Layout sp g).2.2).2.2 = (ui.Layout sp g).2.2 := by
  rcases hR : placeAll (layoutPlacements sp ui g.maxX g.maxY) g with ⟨e, g1⟩
  have hk := layoutPlacements_keep sp ui g.maxX g.maxY
  have hnd : ((layoutPlacements sp ui g.maxX g.maxY).map (fun p => p.name)).Nodup := by
    rw [layoutPlacements_names]; decide
  have hrest : g1.rest = g.rest := by
    have := placeAll_rest (layoutPlacements sp ui g.maxX g.maxY) g
    rw [hR] at this; exact this
  have hX : g1.maxX = g.maxX := congrArg (fun r => r.2.1) hrest
  have hY : g1.maxY = g.maxY := congrArg (fun r => r.2.2.1) hrest
  have again : ∀ g2 : Gui, g2.views = g1.views →
      placeAll (layoutPlacements sp ui2 g.maxX g.maxY) g2 = (e, g2) := by
    intro g2 hg
    have := placeAll_again _ (fun p hp => (hk p hp).1) (fun p hp => (hk p hp).2) hnd _
      (layoutPlacements_spot sp ui ui2 g.maxX g.maxY) g g2 (by rw [hR]; exact hg)
    rw [hR] at this; exact this
  rcases Layout_of_placeAll sp ui g e g1 hR with ⟨h1, h2⟩ | ⟨h1, hs, g2, hv, h2X, h2Y, hc, h2⟩
  · rw [h2]
    show (ui2.Layout sp g1).2.2 = g1
    have a := again g1 rfl
    rw [← hX, ← hY] at a
    rcases Layout_of_placeAll sp ui2 g1 e g1 a with ⟨_, k2⟩ | ⟨k1, _⟩
    · rw [k2]
    · exact absurd k1 h1
  · rw [h2]
    show (ui2.Layout sp g2).2.2 = g2
    have a := again g2 hv
    rw [← hX, ← hY, ← h2X, ← h2Y] at a
    rcases Layout_of_placeAll sp ui2 g2 e g2 a with ⟨k1, _⟩ | ⟨_, _, g3, kv, kX, kY, kc, k2⟩
    · exact absurd h1 k1
    · rw [k2]
      show g3 = g2
      have hrest3 : g3.rest = g2.rest := by
        have h3 := Layout_result sp ui2 g2
        simp only [a] at h3
        rcases h3 with ⟨k1, _⟩ | ⟨_, k3⟩
        · exact absurd h1 k1
        · rw [k3] at k2
          have : g3 = { g2 with currentView := some "status" } := by
            have := congrArg (fun r => r.2.2) k2
            exact this.symm
          rw [this]
          simp [Gui.rest, hc]
      cases g2; cases g3
      simp only [Gui.rest, Prod.mk.injEq] at hrest3
      simp only at kv
      simp only [Gui.mk.injEq]
      exact ⟨kv, hrest3.1, hrest3.2.1, hrest3.2.2.1, hrest3.2.2.2.1, hrest3.2.2.2.2.1,
        hrest3.2.2.2.2.2⟩

/-- C7: `Layout` and `setResponseView` leave the title, editable flag, editor and buffer of
every pane that exists when they run as they were, and a second `Layout` pass, with whatever
Response, leaves the whole GUI, every buffer included, as the first pass left it. -/
theorem Layout_keeps_content (sp : SplitAPI) (ui : UI) (g : Gui) :
    (∀ name, (g.View name).isSome →
      ((ui.Layout sp g).2.2.View name).map View.content = (g.View name).map View.content) ∧
    (∀ x0 y0 x1 y1 name, (g.View name).isSome →
      ((ui.setResponseView sp g x0 y0 x1 y1).2.View name).map View.content =
        (g.View name).map View.content) ∧
    (∀ ui2 : UI, (ui2.Layout sp (ui.Layout sp g).2.2).2.2 = (ui.Layout sp g).2.2) := by
  refine ⟨?_, ?_, fun ui2 => Layout_second_pass sp ui ui2 g⟩
  · intro name hn
    obtain ⟨v, hv⟩ := Option.isSome_iff_exists.1 hn
    have hk := layoutPlacements_keep sp ui g.maxX g.maxY
    obtain ⟨v2, h2, c2⟩ := placeAll_content _ (fun p hp => (hk p hp).1) g name v hv
    rcases hR : placeAll (layoutPlacements sp ui g.maxX g.maxY) g with ⟨e, g1⟩
    rw [hR] at h2
    rcases Layout_of_placeAll sp ui g e g1 hR with ⟨_, h⟩ | ⟨_, _, g2, hg2, _, _, _, h⟩
    · rw [h, hv]; simp only; rw [h2]; simp [c2]
    · rw [h, hv]; simp only
      rw [View_congr _ _ hg2, h2]
      simp [c2]
  · intro x0 y0 x1 y1 name hn
    obtain ⟨v, hv⟩ := Option.isSome_iff_exists.1 hn
    have hk := responsePlacements_keep sp ui x0 y0 x1 y1
    obtain ⟨v2, h2, c2⟩ := placeAll_content _ (fun p hp => (hk p hp).1) g name v hv
    rw [setResponseView_eq, h2, hv]; simp [c2]

/-- C7, with the status pane edited to hold 404 while the Response says 200: the pane
exists, and `Layout` leaves its content as it is. -/
theorem Layout_keeps_content_witness :
    ((withText startGui "status" "404").View "status").isSome ∧
    ((NewUI.Layout specSplit (withText startGui "status" "404")).2.2.View "status").map
        View.content =
      ((withText startGui "status" "404").View "status").map View.content :=
  ⟨by decide,
   (Layout_keeps_content specSplit NewUI (withText startGui "status" "404")).1 "status"
     (by decide)⟩

/-- C10 fails on the code: `Init` returns `nil` whatever `Layout` returns; on a terminal of
one column and one row `Layout` returns an error and `Init` returns `nil`. -/
theorem Init_drops_Layout_error :
    (∀ (sp : SplitAPI) (ui : UI) (g : Gui), (ui.Init sp g).1 = none) ∧
    (NewUI.Layout specSplit (emptyGui 1 1)).1 = some (.other "invalid dimensions") ∧
    (NewUI.Init specSplit (emptyGui 1 1)).1 = none :=
  ⟨fun _ _ _ => rfl, by decide, rfl⟩

/-! ## `saveResponse` -/

theorem Info_resp (ui : UI) (g : Gui) (rt : Runtime) (msg : String) :
    (ui.Info g rt msg).1.resp = ui.resp := by
  unfold UI.Info
  cases g.View "info" <;> rfl

theorem wrapInt64_of_fits (z : Int) (h1 : -(2 ^ 63) ≤ z) (h2 : z < 2 ^ 63) : wrapInt64 z = z := by
  unfold wrapInt64
  rw [Int.emod_eq_of_lt (by omega) (by omega)]
  omega

theorem saveResponse_resp (nr : String → String → String → Except GoError Response)
    (ui : UI) (g : Gui) (rt : Runtime) (v : Option View) :
    (ui.saveResponse nr g rt v).2.1.resp =
      match nr (paneTexts g).1 (paneTexts g).2.1 (paneTexts g).2.2 with
      | .error _ => ui.resp
      | .ok r =>
        match strconv.Atoi (delayText g) with
        | .error _ => ui.resp
        | .ok n => { r with Delay := wrapInt64 (n * Millisecond) } := by
  unfold UI.saveResponse paneTexts delayText
  simp only
  cases nr (getViewBuffer g "status") (getViewBuffer g "headers") (getViewBuffer g "body") with
  | error err => simp only [Info_resp]
  | ok r =>
    simp only
    cases strconv.Atoi (strings.Trim (getViewBuffer g "delay") " \n") with
    | error err => simp only [Info_resp]
    | ok n => simp only [Info_resp]

theorem saveResponse_ok (nr : String → String → String → Except GoError Response)
    (ui : UI) (g : Gui) (rt : Runtime) (v : Option View) (r : Response) (n : Int)
    (h1 : nr (getViewBuffer g "status") (getViewBuffer g "headers")
      (getViewBuffer g "body") = .ok r)
    (h2 : strconv.Atoi (strings.Trim (getViewBuffer g "delay") " \n") = .ok n)
    (h3 : fitsDuration n) :
    (ui.saveResponse nr g rt v).2.1.resp = { r with Delay := n * Millisecond } := by
  rw [saveResponse_resp]
  unfold paneTexts delayText
  simp only [h1, h2]
  rw [wrapInt64_of_fits _ h3.1 h3.2]

/-- C1: when `NewResponse` returns an error, or `Atoi` rejects the text of the delay pane
trimmed of spaces and newlines, `saveResponse` leaves the UI's Response exactly as it was:
status, headers, body and delay. -/
theorem saveResponse_failure_keeps_Response
    (nr : String → String → String → Except GoError Response)
    (ui : UI) (g : Gui) (rt : Runtime) (v : Option View)
    (h : (nr (getViewBuffer g "status") (getViewBuffer g "headers")
            (getViewBuffer g "body")).toOption = none ∨
         (strconv.Atoi (strings.Trim (getViewBuffer g "delay") " \n")).toOption = none) :
    (ui.saveResponse nr g rt v).2.1.resp = ui.resp := by
  rw [saveResponse_resp]
  unfold paneTexts delayText
  simp only
  cases h1 : nr (getViewBuffer g "status") (getViewBuffer g "headers") (getViewBuffer g "body") with
  | error err => rfl
  | ok r =>
    simp only
    cases h2 : strconv.Atoi (strings.Trim (getViewBuffer g "delay") " \n") with
    | error err => rfl
    | ok n =>
      rw [h1, h2] at h
      simp [Except.toOption] at h

/-- C1, on the spec's example: with the Response 404, `A: B`, `x`, 50 ms saved and `abc` in
the status pane, the status does not parse and the save leaves that Response as it is. -/
theorem saveResponse_failure_keeps_Response_witness :
    (savedUI.saveResponse statusOnly statusAbcGui freshRuntime none).2.1.resp =
      { Status := 404, Headers := [("A", ["B"])], Body := "x", Delay := 50000000 } :=
  saveResponse_failure_keeps_Response statusOnly savedUI statusAbcGui freshRuntime none
    (Or.inl (by decide))

/-- C3, as the code has it: when `NewResponse` returns the response `r` and `Atoi` reads the
integer `n` from the text of the delay pane trimmed of spaces and newlines (no other white
space is trimmed), and `n` milliseconds fit a duration, `saveResponse` sets the UI's Response
to `r` with a delay of exactly `n` milliseconds; when `Atoi` rejects that text the Response
stays as it was. -/
theorem saveResponse_commits (nr : String → String → String → Except GoError Response)
    (ui : UI) (g : Gui) (rt : Runtime) (v : Option View) :
    (∀ r n, nr (getViewBuffer g "status") (getViewBuffer g "headers")
              (getViewBuffer g "body") = .ok r →
        strconv.Atoi (strings.Trim (getViewBuffer g "delay") " \n") = .ok n →
        fitsDuration n →
        (ui.saveResponse nr g rt v).2.1.resp = { r with Delay := n * Millisecond }) ∧
    ((strconv.Atoi (strings.Trim (getViewBuffer g "delay") " \n")).toOption = none →
        (ui.saveResponse nr g rt v).2.1.resp = ui.resp) := by
  constructor
  · intro r n h1 h2 h3
    exact saveResponse_ok nr ui g rt v r n h1 h2 h3
  · intro h
    rw [saveResponse_resp]
    unfold paneTexts delayText
    simp only
    cases h1 : nr (getViewBuffer g "status") (getViewBuffer g "headers")
        (getViewBuffer g "body") with
    | error err => rfl
    | ok r =>
      simp only
      cases h2 : strconv.Atoi (strings.Trim (getViewBuffer g "delay") " \n") with
      | error err => rfl
      | ok n => rw [h2] at h; simp [Except.toOption] at h

/-- C3, with `100` in the delay pane: the save stores the response `NewResponse` returned
with a delay of 100 ms; with `abc` in the delay pane the Response stays as it was. -/
theorem saveResponse_commits_witness :
    (NewUI.saveResponse acceptAll delay100Gui freshRuntime none).2.1.resp =
      { Status := 404, Headers := [("A", ["B"])], Body := "x", Delay := 100 * Millisecond } ∧
    (NewUI.saveResponse acceptAll delayAbcGui freshRuntime none).2.1.resp = NewUI.resp :=
  ⟨(saveResponse_commits acceptAll NewUI delay100Gui freshRuntime none).1
    { Status := 404, Headers := [("A", ["B"])], Body := "x", Delay := 0 } 100
    rfl rfl (by decide),
   (saveResponse_commits acceptAll NewUI delayAbcGui freshRuntime none).2 (by decide)⟩

/-- C3 as stated fails: the delay pane holds `100` and a tab, which trimmed of surrounding
white space is `100`, the numeral of 100; `NewResponse` succeeds and 100 ms fit a duration;
yet the save does not store the response with a delay of 100 ms: the Response stays the one
of `NewUI`. -/
theorem saveResponse_tab_rejected :
    trimWhitespace (getViewBuffer delayTabGui "delay") = "100" ∧
    fmtInt 100 = "100" ∧ fitsDuration 100 ∧
    (acceptAll (getViewBuffer delayTabGui "status") (getViewBuffer delayTabGui "headers")
        (getViewBuffer delayTabGui "body")).toOption =
      some { Status := 404, Headers := [("A", ["B"])], Body := "x", Delay := 0 } ∧
    (NewUI.saveResponse acceptAll delayTabGui freshRuntime none).2.1.resp ≠
      { Status := 404, Headers := [("A", ["B"])], Body := "x", Delay := 100 * Millisecond } ∧
    (NewUI.saveResponse acceptAll delayTabGui freshRuntime none).2.1.resp = NewUI.resp := by
  decide

theorem SavedFrom_delay (P : Int → Prop) (ui : UI) (h : SavedFrom P ui) :
    ∃ n : Int, (n = 0 ∨ P n) ∧ ui.resp.Delay = wrapInt64 (n * Millisecond) := by
  induction h with
  | start => exact ⟨0, Or.inl rfl, by decide⟩
  | save ui nr g rt v _ hP ih =>
    rw [saveResponse_resp]
    cases nr (paneTexts g).1 (paneTexts g).2.1 (paneTexts g).2.2 with
    | error err => exact ih
    | ok r =>
      simp only
      cases h2 : strconv.Atoi (delayText g) with
      | error err => exact ih
      | ok n => exact ⟨n, Or.inr (hP n h2), rfl⟩

/-- C5, as the code has it: the delay is what `Atoi` read, negative numbers included. In
every UI state reached from `NewUI` by calls of `saveResponse` whose delay texts, when they
parse, denote integers that are not negative and whose milliseconds fit a duration, the
delay is a whole number of milliseconds that is not negative; and a save in which
`NewResponse` succeeds and the delay text denotes a negative integer `n` whose milliseconds
fit a duration is neither rejected nor stored as zero: the delay becomes `n` milliseconds,
below zero. -/
theorem saveResponse_delay_sign :
    (∀ ui : UI, SavedFrom (fun n => 0 ≤ n ∧ fitsDuration n) ui →
      ∃ n : Int, 0 ≤ n ∧ ui.resp.Delay = n * Millisecond) ∧
    (∀ (nr : String → String → String → Except GoError Response) (ui : UI) (g : Gui)
        (rt : Runtime) (v : Option View) (r : Response) (n : Int),
      nr (getViewBuffer g "status") (getViewBuffer g "headers") (getViewBuffer g "body") = .ok r →
      strconv.Atoi (strings.Trim (getViewBuffer g "delay") " \n") = .ok n →
      n < 0 → fitsDuration n →
      (ui.saveResponse nr g rt v).2.1.resp.Delay = n * Millisecond ∧
      (ui.saveResponse nr g rt v).2.1.resp.Delay < 0) := by
  constructor
  · intro ui h
    obtain ⟨n, hn, hd⟩ := SavedFrom_delay _ ui h
    rcases hn with rfl | ⟨h0, hf⟩
    · exact ⟨0, le_refl _, by rw [hd]; decide⟩
    · exact ⟨n, h0, by rw [hd, wrapInt64_of_fits _ hf.1 hf.2]⟩
  · intro nr ui g rt v r n h1 h2 hneg hf
    have h := saveResponse_ok nr ui g rt v r n h1 h2 hf
    rw [h]
    simp only
    refine ⟨trivial, ?_⟩
    unfold Millisecond
    omega

/-- C5, with `-5` in the delay pane: the save stores a delay of -5 ms. -/
theorem saveResponse_delay_sign_witness :
    (NewUI.saveResponse acceptAll delayMinus5Gui freshRuntime none).2.1.resp.Delay =
      -5 * Millisecond ∧
    (NewUI.saveResponse acceptAll delayMinus5Gui freshRuntime none).2.1.resp.Delay < 0 :=
  saveResponse_delay_sign.2 acceptAll NewUI delayMinus5Gui freshRuntime none
    { Status := 404, Headers := [("A", ["B"])], Body := "x", Delay := 0 } (-5)
    rfl rfl (by decide) (by decide)

/-- C5 as stated fails: one `saveResponse` from `NewUI`, with `-5` in the delay pane, is
neither rejected (the Response changes) nor stored as zero: the delay is -5000000 ns, which
is negative. -/
theorem saveResponse_negative_delay :
    SavedFrom (fun _ => True)
      (NewUI.saveResponse acceptAll delayMinus5Gui freshRuntime none).2.1 ∧
    (NewUI.saveResponse acceptAll delayMinus5Gui freshRuntime none).2.1.resp ≠ NewUI.resp ∧
    (NewUI.saveResponse acceptAll delayMinus5Gui freshRuntime none).2.1.resp.Delay = -5000000 ∧
    (NewUI.saveResponse acceptAll delayMinus5Gui freshRuntime none).2.1.resp.Delay < 0 :=
  ⟨SavedFrom.save NewUI acceptAll delayMinus5Gui freshRuntime none SavedFrom.start
      (fun _ _ => trivial),
   by decide, by decide, by decide⟩

/-! ## Focus cycling and the status editor -/

theorem cicleNext_eq_specNext (c : String) : cicleNext c "status" = specNext (some c) := by
  unfold cicleNext specNext cicleable
  simp only [List.enum, List.enumFrom, List.foldl, List.indexOf?, List.findIdx?]
  by_cases h1 : c = "status"
  · subst h1; decide
  by_cases h2 : c = "delay"
  · subst h2; decide
  by_cases h3 : c = "headers"
  · subst h3; decide
  by_cases h4 : c = "body"
  · subst h4; decide
  by_cases h5 : c = "request"
  · subst h5; decide
  have e1 : ¬ "status" = c := fun h => h1 h.symm
  have e2 : ¬ "delay" = c := fun h => h2 h.symm
  have e3 : ¬ "headers" = c := fun h => h3 h.symm
  have e4 : ¬ "body" = c := fun h => h4 h.symm
  have e5 : ¬ "request" = c := fun h => h5 h.symm
  simp [e1, e2, e3, e4, e5]

/-- C2: `cicleViews` asks the GUI to focus the pane the spec's `Next` names for the current
pane: the first entry, "status", when there is no current pane or its name is not in the
list, and otherwise the entry after the current pane's name, wrapping from "request" to
"status"; whenever that pane exists the focus is set to it and no error is returned. -/
theorem cicleViews_next (ui : UI) (g : Gui) (cur : Option View) :
    ui.cicleViews g cur = g.SetCurrentView (specNext (cur.map (fun v => v.name))) ∧
    ((g.View (specNext (cur.map (fun v => v.name)))).isSome →
      (ui.cicleViews g cur).1 = none ∧
      (ui.cicleViews g cur).2.currentView = some (specNext (cur.map (fun v => v.name)))) ∧
    specNext none = "status" ∧
    (∀ c, c ∉ cicleable → specNext (some c) = "status") ∧
    (∀ i, i < 5 → specNext (some (cicleable.getD i "")) = cicleable.getD ((i + 1) % 5) "") := by
  have h1 : ui.cicleViews g cur = g.SetCurrentView (specNext (cur.map (fun v => v.name))) := by
    cases cur with
    | none => rfl
    | some v => simp only [UI.cicleViews, Option.map]; rw [← cicleNext_eq_specNext]; rfl
  refine ⟨h1, ?_, rfl, ?_, ?_⟩
  · intro hv
    rw [h1]
    obtain ⟨w, hw⟩ := Option.isSome_iff_exists.1 hv
    simp [Gui.SetCurrentView, hw]
  · intro c hc
    simp only [cicleable, List.mem_cons, List.mem_singleton, List.not_mem_nil, or_false,
      not_or] at hc
    rw [← cicleNext_eq_specNext]
    have e1 : ¬ "status" = c := fun h => hc.1 h.symm
    have e2 : ¬ "delay" = c := fun h => hc.2.1 h.symm
    have e3 : ¬ "headers" = c := fun h => hc.2.2.1 h.symm
    have e4 : ¬ "body" = c := fun h => hc.2.2.2.1 h.symm
    have e5 : ¬ "request" = c := fun h => hc.2.2.2.2 h.symm
    simp [cicleNext, cicleable, List.enum, List.enumFrom, e1, e2, e3, e4, e5]
  · intro i hi
    interval_cases i <;> decide

/-- C2, after start with the focus on "body", then on "request", then with no focus: the
focus moves to "request", to "status" and to "status". -/
theorem cicleViews_next_witness :
    (NewUI.cicleViews focusBodyGui (focusBodyGui.View "body")).2.currentView = some "request" ∧
    (NewUI.cicleViews startGui (startGui.View "request")).2.currentView = some "status" ∧
    (NewUI.cicleViews startGui none).2.currentView = some "status" :=
  ⟨((cicleViews_next NewUI focusBodyGui (focusBodyGui.View "body")).2.1 (by decide)).2,
   ((cicleViews_next NewUI startGui (startGui.View "request")).2.1 (by decide)).2,
   ((cicleViews_next NewUI startGui none).2.1 (by decide)).2⟩

theorem utf8Size_ascii (c : Char) (h : c.toNat < 128) : c.utf8Size = 1 := by
  have hle : c.val ≤ UInt32.ofNatCore 127 (by decide) := by
    rw [UInt32.le_def, BitVec.le_def]
    have h1 : c.val.toBitVec.toNat = c.toNat := rfl
    have h2 : (UInt32.ofNatCore 127 (by decide)).toBitVec.toNat = 127 := rfl
    rw [h1, h2]
    omega
  unfold Char.utf8Size
  exact if_pos hle

theorem utf8Len_ascii (cs : List Char) (h : ∀ c ∈ cs, c.toNat < 128) :
    String.utf8ByteSize ⟨cs⟩ = cs.length := by
  induction cs with
  | nil => rfl
  | cons c cs ih =>
    have hc := utf8Size_ascii c (h c (by simp))
    have ih2 := ih (fun d hd => h d (by simp [hd]))
    simp only [String.utf8ByteSize, String.utf8ByteSize.go, hc, List.length_cons] at ih2 ⊢
    rw [ih2]

theorem buffer_length (ls : List (List Char)) :
    (ls.flatMap (fun l => l ++ ['\n'])).length = (ls.map List.length).sum + ls.length := by
  induction ls with
  | nil => rfl
  | cons l ls ih =>
    simp only [List.flatMap_cons, List.length_append, ih, List.map_cons, List.sum_cons,
      List.length_cons, List.length_nil]
    omega

theorem len_Buffer_ascii (v : View) (h : ∀ l ∈ v.lines, ∀ c ∈ l, c.toNat < 128) :
    len v.Buffer = v.chars + v.lines.length := by
  unfold len View.Buffer View.chars
  rw [utf8Len_ascii, List.length_map, buffer_length]
  intro c hc
  obtain ⟨d, hd, rfl⟩ := List.mem_map.1 hc
  by_cases h0 : d = Char.ofNat 0
  · rw [if_pos h0]; decide
  · rw [if_neg h0]
    obtain ⟨l, hl, hdl⟩ := List.mem_flatMap.1 hd
    rcases List.mem_append.1 hdl with hdl | hdl
    · exact h l hl d hdl
    · simp only [List.mem_singleton] at hdl
      rw [hdl]; decide

theorem statusEditor_iff (v : View) (key : Key) (ch c : Char) :
    statusEditor.Edit v key ch = some (.EditWrite c) ↔
      c = ch ∧ (48 ≤ ch.toNat ∧ ch.toNat ≤ 57) ∧ len v.Buffer < 5 := by
  unfold statusEditor.Edit
  by_cases hd : ch.toNat ≥ 48 ∧ ch.toNat ≤ 57
  · by_cases hl : len v.Buffer > 4
    · simp [hd, hl]; omega
    · rw [if_pos hd, if_neg hl]
      simp only [Option.some.injEq, ViewOp.EditWrite.injEq]
      constructor
      · intro h; exact ⟨h.symm, ⟨hd.1, hd.2⟩, by omega⟩
      · intro h; exact h.1.symm
  · have hd2 : ¬ (48 ≤ ch.toNat ∧ ch.toNat ≤ 57) := hd
    rw [if_neg hd]
    constructor
    · intro h
      split_ifs at h <;> simp at h
    · intro h; exact absurd h.2.1 hd2

/-- C4, as the code has it: `statusEditor.Edit` inserts a character exactly when it is the
character of the event, an ASCII digit, and the text `Buffer()` returns, in which every line
of the pane is followed by a newline, is fewer than 5 bytes long; a digit that meets 5 bytes
or more does nothing. For a pane of ASCII text these bytes are its characters plus one for
each of its lines, so a status pane of one line takes a digit exactly while it holds fewer
than 4 characters: a digit is accepted at 3 characters and rejected at 4. -/
theorem statusEditor_inserts_bytes (v : View) (key : Key) (ch : Char) :
    (∀ c, statusEditor.Edit v key ch = some (.EditWrite c) ↔
      c = ch ∧ (48 ≤ ch.toNat ∧ ch.toNat ≤ 57) ∧ len v.Buffer < 5) ∧
    ((48 ≤ ch.toNat ∧ ch.toNat ≤ 57) → len v.Buffer ≥ 5 → statusEditor.Edit v key ch = none) ∧
    ((∀ l ∈ v.lines, ∀ c ∈ l, c.toNat < 128) → len v.Buffer = v.chars + v.lines.length) ∧
    (∀ l, v.lines = [l] → (∀ c ∈ l, c.toNat < 128) → (48 ≤ ch.toNat ∧ ch.toNat ≤ 57) →
      (statusEditor.Edit v key ch = some (.EditWrite ch) ↔ v.chars < 4) ∧
      (v.chars ≥ 4 → statusEditor.Edit v key ch = none)) := by
  refine ⟨fun c => statusEditor_iff v key ch c, ?_, len_Buffer_ascii v, ?_⟩
  · intro hd hl
    have hl2 : len v.Buffer > 4 := by omega
    simp [statusEditor.Edit, hd, hl2]
  · intro l hl ha hd
    have hlen := len_Buffer_ascii v (by rw [hl]; simpa using ha)
    rw [hl, List.length_singleton] at hlen
    constructor
    · rw [statusEditor_iff v key ch ch]
      constructor
      · intro h; omega
      · intro h; exact ⟨rfl, hd, by omega⟩
    · intro h4
      have hl2 : len v.Buffer > 4 := by omega
      simp [statusEditor.Edit, hd, hl2]

/-- C4, on the status pane: showing `200`, 3 characters, it takes the digit 4; showing
`2004`, 4 characters, it refuses the digit 5. -/
theorem statusEditor_inserts_bytes_witness :
    ((statusPane "200").chars = 3 ∧
      statusEditor.Edit (statusPane "200") .KeyOther '4' = some (.EditWrite '4')) ∧
    ((statusPane "2004").chars = 4 ∧
      statusEditor.Edit (statusPane "2004") .KeyOther '5' = none) :=
  ⟨⟨by decide,
    ((statusEditor_inserts_bytes (statusPane "200") .KeyOther '4').2.2.2 "200".toList rfl
      (by decide) (by decide)).1.2 (by decide)⟩,
   ⟨by decide,
    ((statusEditor_inserts_bytes (statusPane "2004") .KeyOther '5').2.2.2 "2004".toList rfl
      (by decide) (by decide)).2 (by decide)⟩⟩

/-- C4 as stated fails: a status pane showing `2004` holds 4 characters, fewer than 5, and
the digit 5 is not inserted, because `Buffer()` returns these 4 characters and a newline; a
pane holding two accented letters, 2 characters of 2 bytes each, refuses the digit too. -/
theorem statusEditor_rejects_at_four :
    (statusPane "2004").chars = 4 ∧
    (statusPane "2004").Buffer = "2004\n" ∧
    statusEditor.Edit (statusPane "2004") .KeyOther '5' = none ∧
    accentPane.chars = 2 ∧
    statusEditor.Edit accentPane .KeyOther '5' = none := by
  decide

/-! ## Seeding of the headers pane -/

theorem foldl_Write_lines (h : List (String × List String)) (line : String × List String → String)
    (v : View) :
    (h.foldl (fun v kv => v.Write (line kv)) v).lines =
      (String.join (h.map line)).toList.foldl writeRune v.lines := by
  induction h generalizing v with
  | nil => rfl
  | cons kv h ih =>
    simp only [List.foldl_cons, List.map_cons]
    rw [ih]
    simp [String.toList, String.data_join, View.Write, List.foldl_append]

theorem foldl_writeRune_oneLine (cs : List Char) (hc : ∀ c ∈ cs, c ≠ '\n' ∧ c ≠ '\r')
    (ls : List (List Char)) (l : List Char) :
    cs.foldl writeRune (ls ++ [l]) = ls ++ [l ++ cs] := by
  induction cs generalizing l with
  | nil => simp
  | cons c cs ih =>
    have h1 := (hc c (by simp)).1
    have h2 := (hc c (by simp)).2
    simp only [List.foldl_cons]
    have : writeRune (ls ++ [l]) c = ls ++ [l ++ [c]] := by
      simp [writeRune, h1, h2]
    rw [this, ih (fun d hd => hc d (by simp [hd]))]
    simp

theorem foldl_writeRune_line (cs : List Char) (hc : ∀ c ∈ cs, c ≠ '\n' ∧ c ≠ '\r')
    (ls : List (List Char)) :
    (cs ++ ['\n']).foldl writeRune (ls ++ [[]]) = ls ++ [cs] ++ [[]] := by
  rw [List.foldl_append, foldl_writeRune_oneLine cs hc]
  simp [writeRune]

theorem foldl_writeRune_first (cs : List Char) (hc : ∀ c ∈ cs, c ≠ '\n' ∧ c ≠ '\r')
    (hne : cs ≠ []) :
    (cs ++ ['\n']).foldl writeRune [] = [cs] ++ [[]] := by
  cases cs with
  | nil => exact absurd rfl hne
  | cons c cs =>
    have h1 := (hc c (by simp)).1
    have h2 := (hc c (by simp)).2
    have : writeRune [] c = [] ++ [[c]] := by simp [writeRune, h1, h2]
    simp only [List.cons_append, List.foldl_cons]
    rw [this, List.foldl_append, foldl_writeRune_oneLine cs (fun d hd => hc d (by simp [hd]))]
    simp [writeRune]

theorem placeAll_view_new (ps : List Placement) (hk : ∀ p ∈ ps, KeepsName p.init)
    (hn : (ps.map (fun p => p.name)).Nodup) (p : Placement) (hp : p ∈ ps)
    (g : Gui) (hv : g.View p.name = none) :
    (placeAll ps g).2.View p.name = none ∨
    (placeAll ps g).2.View p.name = some (p.init (newView p.name p.x0 p.y0 p.x1 p.y1)) := by
  induction ps generalizing g with
  | nil => simp at hp
  | cons q ps ih =>
    simp only [List.map_cons, List.nodup_cons] at hn
    unfold placeAll
    rcases List.mem_cons.1 hp with rfl | hp2
    · have h1 := place_view_new g p (hk p (by simp)) hv
      have hne : ∀ r ∈ ps, p.name ≠ r.name := by
        intro r hr he
        exact hn.1 (List.mem_map.2 ⟨r, hr, he.symm⟩)
      have h3 := fun g1 =>
        placeAll_view_other ps (fun r hr => hk r (by simp [hr])) g1 p.name hne
      rcases hpl : place g p with ⟨e, g1⟩
      rw [hpl] at h1
      cases e with
      | some err => exact h1
      | none => simp only; rw [h3 g1]; exact h1
    · have hne : p.name ≠ q.name := by
        intro he
        exact hn.1 (List.mem_map.2 ⟨p, hp2, he⟩)
      have h1 := place_view_other g q (hk q (by simp)) p.name hne
      rcases hpl : place g q with ⟨e, g1⟩
      rw [hpl] at h1
      cases e with
      | some err => left; simp only; rw [h1, hv]
      | none =>
        simp only
        exact ih (fun r hr => hk r (by simp [hr])) hn.2 hp2 g1 (by rw [h1, hv])

theorem seed_lines (h : Header) (es : List (String × List String))
    (hc : ∀ kv ∈ es, oneLine kv.1 ∧ oneLine (h.Get kv.1)) (ls : List (List Char)) :
    (String.join (es.map (fun kv => kv.1 ++ ": " ++ h.Get kv.1 ++ "\n"))).toList.foldl writeRune
        (ls ++ [[]]) =
      ls ++ es.map (fun kv => (kv.1 ++ ": " ++ h.Get kv.1).toList) ++ [[]] := by
  induction es generalizing ls with
  | nil => simp [String.join]
  | cons kv es ih =>
    have hline : ∀ c ∈ (kv.1 ++ ": " ++ h.Get kv.1).toList, c ≠ '\n' ∧ c ≠ '\r' := by
      intro c hcm
      simp only [String.toList, String.data_append, List.mem_append] at hcm
      rcases hcm with (hcm | hcm) | hcm
      · exact (hc kv (by simp)).1 c hcm
      · have : c = ':' ∨ c = ' ' := by simpa using hcm
        rcases this with rfl | rfl <;> decide
      · exact (hc kv (by simp)).2 c hcm
    have ih2 := ih (fun kv2 h2 => hc kv2 (by simp [h2]))
      (ls ++ [(kv.1 ++ ": " ++ h.Get kv.1).toList])
    have e : ((kv.1 ++ ": " ++ h.Get kv.1 ++ "\n").data) =
        (kv.1 ++ ": " ++ h.Get kv.1).toList ++ ['\n'] := by
      simp [String.toList, String.data_append]
    simp only [String.toList, String.data_join, List.map_cons, List.flatten_cons,
      List.foldl_append, List.map_map] at ih2 ⊢
    rw [e, foldl_writeRune_line _ hline]
    refine Eq.trans ih2 ?_
    simp

theorem seed_lines_first (h : Header) (es : List (String × List String))
    (hc : ∀ kv ∈ es, oneLine kv.1 ∧ oneLine (h.Get kv.1)) :
    (String.join (es.map (fun kv => kv.1 ++ ": " ++ h.Get kv.1 ++ "\n"))).toList.foldl writeRune
        [] =
      if es = [] then []
      else es.map (fun kv => (kv.1 ++ ": " ++ h.Get kv.1).toList) ++ [[]] := by
  cases es with
  | nil => simp [String.join]
  | cons kv es =>
    have hline : ∀ c ∈ (kv.1 ++ ": " ++ h.Get kv.1).toList, c ≠ '\n' ∧ c ≠ '\r' := by
      intro c hcm
      simp only [String.toList, String.data_append, List.mem_append] at hcm
      rcases hcm with (hcm | hcm) | hcm
      · exact (hc kv (by simp)).1 c hcm
      · have : c = ':' ∨ c = ' ' := by simpa using hcm
        rcases this with rfl | rfl <;> decide
      · exact (hc kv (by simp)).2 c hcm
    have hne : (kv.1 ++ ": " ++ h.Get kv.1).toList ≠ [] := by
      simp [String.toList, String.data_append]
    have e : ((kv.1 ++ ": " ++ h.Get kv.1 ++ "\n").data) =
        (kv.1 ++ ": " ++ h.Get kv.1).toList ++ ['\n'] := by
      simp [String.toList, String.data_append]
    have ih2 := seed_lines h es (fun kv2 h2 => hc kv2 (by simp [h2]))
      [(kv.1 ++ ": " ++ h.Get kv.1).toList]
    simp only [String.toList, String.data_join, List.map_cons, List.flatten_cons,
      List.foldl_append, List.map_map] at ih2 ⊢
    rw [e, foldl_writeRune_first _ hline hne]
    refine Eq.trans ih2 ?_
    simp

theorem plainText_append (a b : String) :
    plainText (a ++ b) = (plainText a && plainText b) := by
  unfold plainText
  simp only [String.toList, String.data_append, List.mem_append, not_or]
  by_cases h1 : Char.ofNat 27 ∈ a.data <;> by_cases h2 : Char.ofNat 27 ∈ b.data <;>
    simp [h1, h2]

theorem foldl_Write_plain (h : List (String × List String))
    (line : String × List String → String) (hp : ∀ kv ∈ h, plainText (line kv) = true)
    (v : View) :
    (h.foldl (fun v kv => v.Write (line kv)) v).plain = v.plain := by
  induction h generalizing v with
  | nil => rfl
  | cons kv h ih =>
    simp only [List.foldl_cons]
    rw [ih (fun kv2 h2 => hp kv2 (by simp [h2]))]
    simp [View.Write, hp kv (by simp)]

/-- C8, as the code has it: a newly created headers pane has the title "Headers" and is
editable, and, the header keys and values being free of the escape character, holds what
writing one line `key: value` per header key leaves in a new view, the value being the one
`Headers.Get(key)` returns (the first value stored under the canonical form of the key, so
that further values of a key do not appear); when no key and no such value contains a line
break, the lines of the pane are exactly these lines, in the order the keys are visited,
followed by the empty line after the last newline. -/
theorem headers_pane_seed (sp : SplitAPI) (ui : UI) (g : Gui) (x0 y0 x1 y1 : Int) (v : View)
    (hnew : g.View "headers" = none)
    (hv : (ui.setResponseView sp g x0 y0 x1 y1).2.View "headers" = some v) :
    v.Title = "Headers" ∧ v.Editable = true ∧
    ((∀ kv ∈ ui.resp.Headers,
        plainText kv.1 = true ∧ plainText (ui.resp.Headers.Get kv.1) = true) →
      v.plain = true ∧
      v.lines = (linePerKey ui.resp.Headers).toList.foldl writeRune [] ∧
      ((∀ kv ∈ ui.resp.Headers, oneLine kv.1 ∧ oneLine (ui.resp.Headers.Get kv.1)) →
        v.lines =
          if ui.resp.Headers = [] then []
          else ui.resp.Headers.map
            (fun kv => (kv.1 ++ ": " ++ ui.resp.Headers.Get kv.1).toList) ++ [[]])) := by
  have hk := responsePlacements_keep sp ui x0 y0 x1 y1
  have hnd : ((responsePlacements sp ui x0 y0 x1 y1).map (fun p => p.name)).Nodup := by
    rw [responsePlacements_names]; decide
  obtain ⟨p, hp, hpn, hpi⟩ : ∃ p ∈ responsePlacements sp ui x0 y0 x1 y1, p.name = "headers" ∧
      p.init = fun v => ui.resp.Headers.foldl
        (fun v kv => v.Write (kv.1 ++ ": " ++ ui.resp.Headers.Get kv.1 ++ "\n"))
        { v with Editable := true, Title := "Headers" } :=
    ⟨_, by simp only [responsePlacements, List.mem_cons]; right; right; left; rfl, rfl, rfl⟩
  have h := placeAll_view_new _ (fun p hp => (hk p hp).1) hnd p hp g (by rw [hpn]; exact hnew)
  rw [← setResponseView_eq, hpn, hv] at h
  rcases h with h | h
  · cases h
  · have hveq := Option.some.inj h
    rw [hpi] at hveq
    have hframe := foldl_Write_frame ui.resp.Headers
      (fun kv => kv.1 ++ ": " ++ ui.resp.Headers.Get kv.1 ++ "\n")
      { (newView "headers" p.x0 p.y0 p.x1 p.y1) with Editable := true, Title := "Headers" }
    have hlines := foldl_Write_lines ui.resp.Headers
      (fun kv => kv.1 ++ ": " ++ ui.resp.Headers.Get kv.1 ++ "\n")
      { (newView "headers" p.x0 p.y0 p.x1 p.y1) with Editable := true, Title := "Headers" }
    have hplain := foldl_Write_plain ui.resp.Headers
      (fun kv => kv.1 ++ ": " ++ ui.resp.Headers.Get kv.1 ++ "\n")
    simp only at hveq hframe
    rw [← hveq] at hframe hlines
    refine ⟨hframe.2.2.2.2.2.1, hframe.2.2.2.2.2.2.1, ?_⟩
    intro hpl
    have hpl2 : ∀ kv ∈ ui.resp.Headers,
        plainText (kv.1 ++ ": " ++ ui.resp.Headers.Get kv.1 ++ "\n") = true := by
      intro kv hkv
      have h1 : plainText ": " = true := by decide
      have h2 : plainText "\n" = true := by decide
      simp [plainText_append, (hpl kv hkv).1, (hpl kv hkv).2, h1, h2]
    have hp3 := hplain hpl2
      { (newView "headers" p.x0 p.y0 p.x1 p.y1) with Editable := true, Title := "Headers" }
    rw [← hveq] at hp3
    refine ⟨hp3, hlines, ?_⟩
    intro hc
    rw [hlines]
    exact seed_lines_first ui.resp.Headers ui.resp.Headers hc

/-- C8, for a Response with the header `A` of values `1` and `2` and the header `B` of
value `3`, on a GUI without panes: the headers pane is created and its lines are `A: 1`,
`B: 3` and the empty line after the last newline. -/
theorem headers_pane_seed_witness :
    (emptyGui 100 40).View "headers" = none ∧
    (twoKeysUI.setResponseView specSplit (emptyGui 100 40) 70 0 99 36).2.View "headers" =
      some twoKeysHeadersPane ∧
    twoKeysHeadersPane.lines = ["A: 1".toList, "B: 3".toList, []] :=
  ⟨by decide, by decide,
   ((headers_pane_seed specSplit twoKeysUI (emptyGui 100 40) 70 0 99 36 twoKeysHeadersPane
     (by decide) (by decide)).2.2 (by decide)).2.2 (by decide)⟩

/-- C8 as stated fails: for a Response whose header `A` has the values `1` and `2`, one line
per value would be `A: 1` and `A: 2`, but the newly created headers pane holds the line
`A: 1` only; the value `2` is missing. -/
theorem headers_pane_second_value_missing :
    (emptyGui 100 40).View "headers" = none ∧
    linePerValue twoValuesUI.resp.Headers = "A: 1\nA: 2\n" ∧
    (twoValuesGui.View "headers").map View.lines = some ["A: 1".toList, []] ∧
    getViewBuffer twoValuesGui "headers" = "A: 1\n\n" ∧
    getViewBuffer twoValuesGui "headers" ≠
      ((newView "headers" 70 6 99 19).Write (linePerValue twoValuesUI.resp.Headers)).Buffer := by
  decide

/-! ## `Info` and its timer -/

theorem stopAt_length (i : Nat) (ts : List Timer) : (stopAt i ts).length = ts.length := by
  induction ts generalizing i with
  | nil => cases i <;> rfl
  | cons t ts ih => cases i with
    | zero => rfl
    | succ i => simp [stopAt, ih]

theorem stopAt_append_length (ts : List Timer) (t : Timer) :
    stopAt ts.length (ts ++ [t]) = ts ++ [{ t with pending := false }] := by
  induction ts with
  | nil => rfl
  | cons s ts ih => simp [stopAt, ih]

theorem stopAt_map_fire (now : Int) (i : Nat) (ts : List Timer) :
    stopAt i (ts.map (fire now)) = (stopAt i ts).map (fire now) := by
  induction ts generalizing i with
  | nil => cases i <;> rfl
  | cons t ts ih =>
    cases i with
    | zero =>
      simp only [List.map_cons, stopAt, List.cons.injEq, and_true]
      unfold fire
      split <;> simp
    | succ i => simp [stopAt, ih]

theorem fire_pending (now : Int) (t : Timer) (h : t.pending = false) : fire now t = t := by
  simp [fire, h]

theorem map_fire_of_not_pending (now : Int) (ts : List Timer)
    (h : ∀ t ∈ ts, t.pending = false) : ts.map (fire now) = ts := by
  induction ts with
  | nil => rfl
  | cons t ts ih =>
    simp only [List.map_cons, fire_pending now t (h t (by simp)),
      ih (fun s hs => h s (by simp [hs]))]

theorem dueTimers_of_not_pending (now : Int) (ts : List Timer)
    (h : ∀ t ∈ ts, t.pending = false) : dueTimers now ts = [] := by
  unfold dueTimers
  rw [List.filter_eq_nil_iff]
  intro t ht
  simp [h t ht]

theorem pending_filter_of_not_pending (ts : List Timer) (h : ∀ t ∈ ts, t.pending = false) :
    ts.filter (fun t => t.pending) = [] := by
  rw [List.filter_eq_nil_iff]
  intro t ht
  simp [h t ht]

theorem stoppedTimers_length (ui : UI) (rt : Runtime) :
    (stoppedTimers ui rt).length = rt.timers.length := by
  unfold stoppedTimers
  cases ui.infoTimer <;> simp [stopAt_length]

theorem Info_eq (ui : UI) (g : Gui) (rt : Runtime) (msg : String)
    (hv : (g.View "info").isSome) :
    ui.Info g rt msg =
      ({ ui with infoTimer := some rt.timers.length },
       g.updateView "info" (fun v => (v.Clear).Write msg),
       { rt with timers := stoppedTimers ui rt ++ [⟨rt.now + 3 * Second, true⟩] }) := by
  obtain ⟨v, hv⟩ := Option.isSome_iff_exists.1 hv
  unfold UI.Info stoppedTimers
  rw [hv]
  cases ui.infoTimer with
  | none => rfl
  | some i => simp [Runtime.AfterFunc, Runtime.Stop, stopAt_length]

theorem Info_tracked (ui : UI) (g : Gui) (rt : Runtime) (msg : String) (h : Tracked ui rt) :
    Tracked (ui.Info g rt msg).1 (ui.Info g rt msg).2.2 := by
  cases hv : g.View "info" with
  | none => simp only [UI.Info, hv]; exact h
  | some v =>
    rw [Info_eq ui g rt msg (by simp [hv])]
    unfold Tracked
    have e : stoppedTimers { ui with infoTimer := some rt.timers.length }
        { rt with timers := stoppedTimers ui rt ++ [⟨rt.now + 3 * Second, true⟩] } =
        stoppedTimers ui rt ++ [⟨rt.now + 3 * Second, false⟩] := by
      show stopAt rt.timers.length _ = _
      rw [← stoppedTimers_length ui rt, stopAt_append_length]
    simp only
    rw [e]
    intro t ht
    rcases List.mem_append.1 ht with ht | ht
    · exact h t ht
    · simp at ht; rw [ht]

theorem advance_tracked (ui : UI) (g : Gui) (rt : Runtime) (d : Nat) (h : Tracked ui rt) :
    Tracked ui (advance g rt d).2 := by
  unfold Tracked stoppedTimers at h ⊢
  simp only [advance]
  cases hi : ui.infoTimer with
  | none =>
    rw [hi] at h
    simp only at h ⊢
    rw [map_fire_of_not_pending _ _ h]; exact h
  | some i =>
    rw [hi] at h
    simp only at h ⊢
    rw [stopAt_map_fire, map_fire_of_not_pending _ _ h]; exact h

theorem saveResponse_is_Info (nr : String → String → String → Except GoError Response)
    (ui : UI) (g : Gui) (rt : Runtime) (v : Option View) :
    ∃ (ui0 : UI) (msg : String), ui0.infoTimer = ui.infoTimer ∧
      (ui.saveResponse nr g rt v).2 = ui0.Info g rt msg := by
  unfold UI.saveResponse
  simp only
  cases nr (getViewBuffer g "status") (getViewBuffer g "headers") (getViewBuffer g "body") with
  | error err => exact ⟨ui, _, rfl, rfl⟩
  | ok r =>
    simp only
    cases strconv.Atoi (strings.Trim (getViewBuffer g "delay") " \n") with
    | error err => exact ⟨ui, _, rfl, rfl⟩
    | ok n =>
      exact ⟨{ ui with resp := { r with Delay := wrapInt64 (n * Millisecond) } },
        "Response saved!", rfl, rfl⟩

theorem Layout_infoTimer (sp : SplitAPI) (ui : UI) (g : Gui) :
    (ui.Layout sp g).2.1.infoTimer = ui.infoTimer := by
  rcases Layout_result sp ui g with ⟨_, h⟩ | ⟨_, h⟩ <;> rw [h]

theorem Tracked_congr (ui ui2 : UI) (rt : Runtime) (h : ui2.infoTimer = ui.infoTimer)
    (ht : Tracked ui rt) : Tracked ui2 rt := by
  unfold Tracked stoppedTimers at ht ⊢
  rw [h]; exact ht

theorem step_tracked (sp : SplitAPI) (w : World) (ev : Event) (h : Tracked w.ui w.rt) :
    Tracked (w.step sp ev).ui (w.step sp ev).rt := by
  cases ev with
  | info msg => exact Info_tracked w.ui w.g w.rt msg h
  | wait d => exact advance_tracked w.ui w.g w.rt d h
  | layout => exact Tracked_congr _ _ _ (Layout_infoTimer sp w.ui w.g) h
  | tab => exact h
  | save nr =>
    obtain ⟨ui0, msg, h0, h1⟩ := saveResponse_is_Info nr w.ui w.g w.rt w.g.CurrentView
    simp only [World.step]
    rw [h1]
    exact Info_tracked ui0 w.g w.rt msg (Tracked_congr _ _ _ h0 h)
  | display view bytes => exact h
  | edit view lines => exact h

theorem run_tracked (sp : SplitAPI) (evs : List Event) (w : World) (h : Tracked w.ui w.rt) :
    Tracked (w.run sp evs).ui (w.run sp evs).rt := by
  induction evs generalizing w with
  | nil => exact h
  | cons ev evs ih => exact ih (w.step sp ev) (step_tracked sp w ev h)

theorem Reachable_tracked (sp : SplitAPI) (w : World) (h : Reachable sp w) :
    Tracked w.ui w.rt := by
  obtain ⟨g, now, evs, rfl⟩ := h
  apply run_tracked
  intro t ht
  simp [stoppedTimers, World.start, NewUI] at ht

theorem foldl_writeRune_text (cs : List Char) (hc : ∀ c ∈ cs, c ≠ '\n' ∧ c ≠ '\r')
    (hne : cs ≠ []) : cs.foldl writeRune [] = [cs] := by
  cases cs with
  | nil => exact absurd rfl hne
  | cons c cs =>
    have h1 := (hc c (by simp)).1
    have h2 := (hc c (by simp)).2
    have : writeRune [] c = [] ++ [[c]] := by simp [writeRune, h1, h2]
    simp only [List.foldl_cons]
    rw [this, foldl_writeRune_oneLine cs (fun d hd => hc d (by simp [hd]))]
    simp

theorem Info_view (ui : UI) (g : Gui) (rt : Runtime) (msg : String)
    (hv : (g.View "info").map View.plain = some true) (hm : plainText msg = true) :
    ((ui.Info g rt msg).2.1.View "info").map View.lines =
        some (msg.toList.foldl writeRune []) ∧
    ((ui.Info g rt msg).2.1.View "info").map View.plain = some true := by
  have hs : (g.View "info").isSome := by
    cases h : g.View "info" with
    | none => rw [h] at hv; simp at hv
    | some v => rfl
  rw [Info_eq ui g rt msg hs]
  simp only
  rw [View_updateView g "info" "info" (fun v => (v.Clear).Write msg) (fun _ => rfl)]
  obtain ⟨v, hv2⟩ := Option.isSome_iff_exists.1 hs
  rw [hv2] at hv
  simp only [Option.map_some', Option.some.injEq] at hv
  simp [hv2, View.Write, View.Clear, hv, hm]

theorem advance_idle (g : Gui) (rt : Runtime) (d : Nat) (S : List Timer) (t : Timer)
    (hS : ∀ s ∈ S, s.pending = false) (ht : rt.timers = S ++ [t])
    (hd : rt.now + d < t.deadline) :
    advance g rt d = (g, { rt with now := rt.now + d }) := by
  have hdue : dueTimers (rt.now + d) rt.timers = [] := by
    rw [ht]
    unfold dueTimers
    rw [List.filter_eq_nil_iff]
    intro s hs
    rcases List.mem_append.1 hs with hs | hs
    · simp [hS s hs]
    · simp only [List.mem_singleton] at hs
      subst hs
      simp only [Bool.and_eq_true, decide_eq_true_eq, not_and, not_le]
      intro _; exact hd
  have hmap : rt.timers.map (fire (rt.now + d)) = rt.timers := by
    rw [ht, List.map_append, map_fire_of_not_pending _ _ hS]
    simp only [List.map_cons, List.map_nil, fire]
    have : ¬ t.deadline ≤ rt.now + d := by omega
    simp [this]
  unfold advance
  simp only [hdue, hmap]
  simp

theorem advance_fires (g : Gui) (rt : Runtime) (d : Nat) (S : List Timer) (t : Timer)
    (hS : ∀ s ∈ S, s.pending = false) (ht : rt.timers = S ++ [t]) (hp : t.pending = true)
    (hd : t.deadline ≤ rt.now + d) :
    (advance g rt d).2.clears = rt.clears ++ [t.deadline] ∧
    (advance g rt d).1 = g.updateView "info" View.Clear ∧
    (advance g rt d).2.pendingDeadlines = [] := by
  have hdue : dueTimers (rt.now + d) rt.timers = [t] := by
    rw [ht]
    unfold dueTimers
    rw [List.filter_append]
    have := dueTimers_of_not_pending (rt.now + d) S hS
    unfold dueTimers at this
    rw [this]
    simp [hp, hd]
  unfold advance
  simp only [hdue]
  refine ⟨by simp, by simp, ?_⟩
  unfold Runtime.pendingDeadlines
  simp only
  rw [ht, List.map_append, map_fire_of_not_pending _ _ hS, List.filter_append,
    pending_filter_of_not_pending S hS]
  simp [fire, hp, hd]

/-- C9: in every state the program can be in, a call of `Info` made while the info pane
exists leaves no timer made before the call pending and leaves exactly one auto-clear
pending, due 3 seconds after the call; and, the message and all that was written to the info
pane before being free of the escape character, it leaves in the pane what writing the
message to the emptied pane leaves (for a message of one line, that line). So when a second
call follows less than 3 seconds after the first and at least 3 seconds pass after it,
exactly one clear has run since the first call, 3 seconds after the second call, and none is
pending. -/
theorem Info_debounced (sp : SplitAPI) (w : World) (hw : Reachable sp w)
    (hv : (w.g.View "info").isSome) (msg : String) :
    ((w.g.View "info").map View.plain = some true → plainText msg = true →
      ((w.ui.Info w.g w.rt msg).2.1.View "info").map View.lines =
          some (msg.toList.foldl writeRune []) ∧
      ((w.ui.Info w.g w.rt msg).2.1.View "info").map View.plain = some true) ∧
    ((w.g.View "info").map View.plain = some true → plainText msg = true →
      oneLine msg → msg.toList ≠ [] →
      ((w.ui.Info w.g w.rt msg).2.1.View "info").map View.lines = some [msg.toList]) ∧
    (∀ t ∈ (w.ui.Info w.g w.rt msg).2.2.timers.take w.rt.timers.length, t.pending = false) ∧
    (w.ui.Info w.g w.rt msg).2.2.pendingDeadlines = [w.rt.now + 3 * Second] ∧
    (∀ (msg2 : String) (d1 d2 : Nat), (d1 : Int) < 3 * Second → 3 * Second ≤ (d2 : Int) →
      (w.run sp [.info msg, .wait d1, .info msg2]).rt.pendingDeadlines =
        [w.rt.now + d1 + 3 * Second] ∧
      (w.run sp [.info msg, .wait d1, .info msg2]).rt.clears = w.rt.clears ∧
      (w.run sp [.info msg, .wait d1, .info msg2, .wait d2]).rt.clears =
        w.rt.clears ++ [w.rt.now + d1 + 3 * Second] ∧
      (w.run sp [.info msg, .wait d1, .info msg2, .wait d2]).rt.pendingDeadlines = []) := by
  have htr := Reachable_tracked sp w hw
  have hS : ∀ s ∈ stoppedTimers w.ui w.rt, s.pending = false := htr
  have hI := Info_eq w.ui w.g w.rt msg hv
  refine ⟨Info_view w.ui w.g w.rt msg, ?_, ?_, ?_, ?_⟩
  · intro hp hm h1 h2
    rw [(Info_view w.ui w.g w.rt msg hp hm).1, foldl_writeRune_text _ h1 h2]
  · rw [hI]
    simp only
    rw [← stoppedTimers_length w.ui w.rt, List.take_left]
    exact hS
  · rw [hI]
    unfold Runtime.pendingDeadlines
    simp only
    rw [List.filter_append, pending_filter_of_not_pending _ hS]
    simp
  · intro msg2 d1 d2 h1 h2
    simp only [World.run, List.foldl_cons, List.foldl_nil, World.step]
    rw [hI]
    simp only
    rw [advance_idle _ _ d1 (stoppedTimers w.ui w.rt) ⟨w.rt.now + 3 * Second, true⟩ hS rfl
      (by simp only; omega)]
    simp only
    have hv2 : ((w.g.updateView "info" (fun v => (v.Clear).Write msg)).View "info").isSome := by
      rw [View_updateView w.g "info" "info" (fun v => (v.Clear).Write msg) (fun _ => rfl)]
      obtain ⟨v, hv⟩ := Option.isSome_iff_exists.1 hv
      simp [hv]
    rw [Info_eq _ _ _ msg2 hv2]
    simp only
    have hst : stoppedTimers { w.ui with infoTimer := some w.rt.timers.length }
        { w.rt with timers := stoppedTimers w.ui w.rt ++ [⟨w.rt.now + 3 * Second, true⟩],
                    now := w.rt.now + d1 } =
        stoppedTimers w.ui w.rt ++ [⟨w.rt.now + 3 * Second, false⟩] := by
      show stopAt w.rt.timers.length _ = _
      rw [← stoppedTimers_length w.ui w.rt, stopAt_append_length]
    rw [hst]
    have hS2 : ∀ s ∈ stoppedTimers w.ui w.rt ++ [(⟨w.rt.now + 3 * Second, false⟩ : Timer)],
        s.pending = false := by
      intro s hs
      rcases List.mem_append.1 hs with hs | hs
      · exact hS s hs
      · simp at hs; rw [hs]
    have hf := advance_fires
      ((w.g.updateView "info" (fun v => (v.Clear).Write msg)).updateView "info"
        (fun v => (v.Clear).Write msg2))
      { w.rt with
        timers := stoppedTimers w.ui w.rt ++ [⟨w.rt.now + 3 * Second, false⟩] ++
          [⟨w.rt.now + d1 + 3 * Second, true⟩],
        now := w.rt.now + d1 } d2 _ ⟨w.rt.now + d1 + 3 * Second, true⟩ hS2 rfl rfl
      (by simp only; omega)
    refine ⟨?_, trivial, hf.1, hf.2.2⟩
    unfold Runtime.pendingDeadlines
    simp only
    rw [List.filter_append, pending_filter_of_not_pending _ hS2]
    simp

/-- C9, after start at time 0: `Info` is called with `Response saved!`, which is then the
one line of the info pane; it is called again one second later, and three seconds pass; the
only clear ran at 4 seconds, 3 seconds after the second call. -/
theorem Info_debounced_witness :
    ((NewUI.Info startGui freshRuntime "Response saved!").2.1.View "info").map View.lines =
      some ["Response saved!".toList] ∧
    ((World.start startGui 0).run specSplit
      [.info "Response saved!", .wait 1000000000, .info "Can't parse 'x' as number",
       .wait 3000000000]).rt.clears = [4000000000] :=
  ⟨(Info_debounced specSplit (World.start startGui 0) ⟨startGui, 0, [], rfl⟩ (by decide)
      "Response saved!").2.1 (by decide) (by decide) (by decide) (by decide),
   ((Info_debounced specSplit (World.start startGui 0) ⟨startGui, 0, [], rfl⟩ (by decide)
      "Response saved!").2.2.2.2 "Can't parse 'x' as number" 1000000000 3000000000
      (by decide) (by decide)).2.2.1⟩

end httplab
